import Mathlib

/-!
# Verification of the `raycaster-cpu` core

A shallow embedding of the core of the `raycaster-cpu` repository
(`src/raycaster.rs`, `src/raycaster/shape.rs`, `src/raycaster/map.rs`,
`src/raycaster/color.rs`) together with theorems about the embedded
functions.

Numeric model.  The Rust code computes with `f64`.  The main embedding
models `f64` values as exact rationals (`ℚ`): every arithmetic operation
of the source is translated literally, so on inputs for which the source
never divides by zero the embedding computes the infinitely precise value
of the same expression tree.  In `ℚ` the quotient `q / 0` is `0` rather
than an IEEE infinity, so theorems about the `ℚ` model carry explicit
nonzero-divisor hypotheses wherever a division of the source could see a
zero divisor.  A second embedding (the `F` model below) extends `ℚ` with
`+∞`, `-∞` and `NaN` and gives every operation its IEEE-754 semantics
(with `F.fin 0` playing the role of `+0.0`); it is used for the
statements that are precisely about division by a zero direction
component.  Transcendental library calls of the source (`sqrt`, `acos`,
`π`) are abstracted into an explicit `FloatFns` record, and theorems
constrain them by their defining properties.
-/

namespace RaycasterCPU

/-- `cgmath::Vector2<f64>` in the `ℚ` model. -/
structure Vec2 where
  x : ℚ
  y : ℚ
deriving DecidableEq, Repr

instance : Add Vec2 := ⟨fun a b => ⟨a.x + b.x, a.y + b.y⟩⟩

instance : Sub Vec2 := ⟨fun a b => ⟨a.x - b.x, a.y - b.y⟩⟩

instance : Neg Vec2 := ⟨fun a => ⟨-a.x, -a.y⟩⟩

/-- `v * s` / `s * v` (cgmath scalar multiplication). -/
instance : SMul ℚ Vec2 := ⟨fun q v => ⟨q * v.x, q * v.y⟩⟩

/-- `cgmath`'s `Vector2::dot`. -/
def Vec2.dot (a b : Vec2) : ℚ := a.x * b.x + a.y * b.y

/-- Componentwise division by a scalar (`v / s` in cgmath). -/
def Vec2.divScalar (v : Vec2) (q : ℚ) : Vec2 := ⟨v.x / q, v.y / q⟩

/-- The transcendental `f64` library functions used by the source
(`f64::sqrt`, `f64::acos` and the constant `PI`), abstracted as data.
Theorems about code paths that use them take the defining properties of
the real functions as hypotheses on this record. -/
structure FloatFns where
  sqrtF : ℚ → ℚ
  acosF : ℚ → ℚ
  piQ : ℚ

/-- An RGBA sample, `[f64; 4]` in the source. -/
def Rgba := Fin 4 → ℚ

instance : DecidableEq Rgba := fun a b => by
  unfold Rgba at a b; exact inferInstanceAs (Decidable (a = b))

/-- `Color` from `src/raycaster/color.rs` (the variant set used by the
renderer in `src/raycaster.rs`: `Solid`, `Test`, `Test2`). -/
inductive Color where
  | Solid : Rgba → Color
  | Test : Color
  | Test2 : Color
deriving DecidableEq

/-- `Color::sample` from `src/raycaster/color.rs`. -/
def Color.sample (self : Color) (pos : Vec2) : Rgba :=
  match self with
  | .Solid color => color
  | .Test => ![pos.x, pos.y, 0, 1]
  | .Test2 =>
      if pos.x > 1/5 ∧ pos.x < 4/5 ∧ pos.y > 1/5 ∧ pos.y < 4/5 then
        ![1/2, 1/2, 1, 3/10]
      else
        ![1, 1, 1, 1]

/-- `ShapeHitInfo` from `src/raycaster/shape.rs`.  The source stores
`side : u32`; its only values are `0`..`3` (they index the 4-element
per-tile color array), so the embedding uses `Fin 4`. -/
structure ShapeHitInfo where
  length : ℚ
  x : ℚ
  side : Fin 4
deriving DecidableEq, Repr

/-- `AxisAlignedBox` from `src/raycaster/shape.rs`. -/
structure AxisAlignedBox where
  min : Vec2
  max : Vec2
deriving DecidableEq, Repr

/-- `AxisAlignedBox::ray_cast` from `src/raycaster/shape.rs`, lines
44-78, in the `ℚ` model.  The source early-returns from the first slab
test; here the second test is the `else` branch of the first, which is
the same control flow. -/
def AxisAlignedBox.ray_cast (self : AxisAlignedBox) (pos dir : Vec2) :
    Option ShapeHitInfo :=
  let c1 : ℚ × Fin 4 := if dir.x > 0 then (self.min.x, 0) else (self.max.x, 1)
  let a := (c1.1 - pos.x) / dir.x
  let y := a * dir.y + pos.y
  if y ≥ self.min.y ∧ y ≤ self.max.y ∧ a + 1/1000 ≥ 0 then
    some ⟨a, (y - self.min.y) / (self.max.y - self.min.y), c1.2⟩
  else
    let c2 : ℚ × Fin 4 := if dir.y > 0 then (self.min.y, 2) else (self.max.y, 3)
    let a2 := (c2.1 - pos.y) / dir.y
    let x := a2 * dir.x + pos.x
    if x ≥ self.min.x ∧ x ≤ self.max.x ∧ a2 + 1/1000 ≥ 0 then
      some ⟨a2, (x - self.min.x) / (self.max.x - self.min.x), c2.2⟩
    else none

/-- `Circle` from `src/raycaster/shape.rs`. -/
structure Circle where
  pos : Vec2
  radius : ℚ
deriving DecidableEq, Repr

/-- `Circle::ray_cast` from `src/raycaster/shape.rs`, lines 86-121, in
the `ℚ` model; `in_sqrt.sqrt()` becomes `fns.sqrtF in_sqrt`, `p.x.acos()`
becomes `fns.acosF p.x` and `PI` becomes `fns.piQ`. -/
def Circle.ray_cast (self : Circle) (fns : FloatFns) (pos dir : Vec2) :
    Option ShapeHitInfo :=
  let a := dir.x * dir.x + dir.y * dir.y
  let b := 2 * (dir.x * (pos.x - self.pos.x) + dir.y * (pos.y - self.pos.y))
  let k := pos - self.pos
  let c := k.x * k.x + k.y * k.y - self.radius * self.radius
  let in_sqrt := b * b - 4 * a * c
  if in_sqrt > 0 then
    let sqrt := fns.sqrtF in_sqrt
    let l1 := (-b - sqrt) / (2 * a)
    let l2 := (-b + sqrt) / (2 * a)
    let l? : Option ℚ := if l1 ≥ 0 then some l1 else if l2 ≥ 0 then some l2 else none
    match l? with
    | none => none
    | some l =>
        let p := (pos + l • dir - self.pos).divScalar self.radius
        let angle0 := fns.acosF p.x
        let angle := if p.y < 0 then 2 * fns.piQ - angle0 else angle0
        some ⟨l, angle / (2 * fns.piQ), 0⟩
  else none

/-- `Line` from `src/raycaster/shape.rs`; the fields are the source's
`start` and `end` (`end` is a Lean keyword, hence `startP`/`endP`). -/
structure Line where
  startP : Vec2
  endP : Vec2
deriving DecidableEq, Repr

/-- `Line::ray_cast` from `src/raycaster/shape.rs`, lines 129-159, in
the `ℚ` model.  The source computes `div = 1/denom` and multiplies; in
`ℚ` this is the same as dividing by `denom`. -/
def Line.ray_cast (self : Line) (pos dir : Vec2) : Option ShapeHitInfo :=
  let x1 := pos.x
  let y1 := pos.y
  let x2 := pos.x + dir.x
  let y2 := pos.y + dir.y
  let x3 := self.startP.x
  let y3 := self.startP.y
  let x4 := self.endP.x
  let y4 := self.endP.y
  let div := 1 / ((x1 - x2) * (y3 - y4) - (y1 - y2) * (x3 - x4))
  let t := div * ((x1 - x3) * (y3 - y4) - (y1 - y3) * (x3 - x4))
  let u := div * ((x1 - x3) * (y1 - y2) - (y1 - y3) * (x1 - x2))
  if t + 1/1000 < 0 ∨ u < 0 ∨ u > 1 then
    none
  else
    let side : Fin 4 := if (self.endP - self.startP).dot dir > 0 then 0 else 1
    some ⟨t, u, side⟩

/-- `Shape` from `src/raycaster/shape.rs`. -/
inductive Shape where
  | Void : Shape
  | Box : Shape
  | AxisAlignedBox : RaycasterCPU.AxisAlignedBox → Shape
  | Circle : RaycasterCPU.Circle → Shape
  | Line : RaycasterCPU.Line → Shape

/-- `Shape::ray_cast` from `src/raycaster/shape.rs`, lines 14-30.  The
`Box` arm delegates to the constant unit `AxisAlignedBox`, as in the
source.  `fns` is only consumed by the `Circle` arm. -/
def Shape.ray_cast (self : Shape) (fns : FloatFns) (pos dir : Vec2) :
    Option ShapeHitInfo :=
  match self with
  | .Void => none
  | .Box => (AxisAlignedBox.mk ⟨0, 0⟩ ⟨1, 1⟩).ray_cast pos dir
  | .AxisAlignedBox shape => shape.ray_cast pos dir
  | .Circle shape => shape.ray_cast fns pos dir
  | .Line shape => shape.ray_cast pos dir

/-! ## The `F` model: exact rationals with IEEE-754 special values

Used for the statements about division by a zero direction component.
`F.fin q` is a finite double of exact value `q` (`F.fin 0` plays the
role of IEEE `+0.0`; the sign of zero is not tracked, which matches the
source wherever it is exercised below), `F.pinf`/`F.ninf` are `±∞` and
`F.nan` is a NaN.  Arithmetic never rounds (payloads are exact
rationals); infinity and NaN propagation follows IEEE 754, and every
comparison involving a NaN is false. -/

inductive F where
  | fin : ℚ → F
  | pinf : F
  | ninf : F
  | nan : F
deriving DecidableEq, Repr

/-- IEEE negation. -/
def F.neg : F → F
  | .fin a => .fin (-a)
  | .pinf => .ninf
  | .ninf => .pinf
  | .nan => .nan

/-- IEEE addition (exact on finite values). -/
def F.add : F → F → F
  | .nan, _ => .nan
  | _, .nan => .nan
  | .fin a, .fin b => .fin (a + b)
  | .fin _, .pinf => .pinf
  | .pinf, .fin _ => .pinf
  | .fin _, .ninf => .ninf
  | .ninf, .fin _ => .ninf
  | .pinf, .pinf => .pinf
  | .ninf, .ninf => .ninf
  | .pinf, .ninf => .nan
  | .ninf, .pinf => .nan

/-- IEEE subtraction. -/
def F.sub (a b : F) : F := a.add b.neg

/-- IEEE multiplication (exact on finite values; `±∞ * 0 = NaN`). -/
def F.mul : F → F → F
  | .nan, _ => .nan
  | _, .nan => .nan
  | .fin a, .fin b => .fin (a * b)
  | .fin a, .pinf => if 0 < a then .pinf else if a < 0 then .ninf else .nan
  | .pinf, .fin a => if 0 < a then .pinf else if a < 0 then .ninf else .nan
  | .fin a, .ninf => if 0 < a then .ninf else if a < 0 then .pinf else .nan
  | .ninf, .fin a => if 0 < a then .ninf else if a < 0 then .pinf else .nan
  | .pinf, .pinf => .pinf
  | .ninf, .ninf => .pinf
  | .pinf, .ninf => .ninf
  | .ninf, .pinf => .ninf

/-- IEEE division (exact on finite values; a finite value divided by
zero gives a signed infinity, `0/0 = NaN`; with an untracked zero sign
the denominator `F.fin 0` behaves as `+0.0`). -/
def F.div : F → F → F
  | .nan, _ => .nan
  | _, .nan => .nan
  | .fin a, .fin b =>
      if b = 0 then (if 0 < a then .pinf else if a < 0 then .ninf else .nan)
      else .fin (a / b)
  | .fin _, .pinf => .fin 0
  | .fin _, .ninf => .fin 0
  | .pinf, .fin b => if 0 ≤ b then .pinf else .ninf
  | .ninf, .fin b => if 0 ≤ b then .ninf else .pinf
  | .pinf, .pinf => .nan
  | .pinf, .ninf => .nan
  | .ninf, .pinf => .nan
  | .ninf, .ninf => .nan

/-- IEEE `<` (false whenever a NaN is involved). -/
def F.ltB : F → F → Bool
  | .nan, _ => false
  | _, .nan => false
  | .fin a, .fin b => a < b
  | .fin _, .pinf => true
  | .pinf, .fin _ => false
  | .ninf, .fin _ => true
  | .fin _, .ninf => false
  | .pinf, .pinf => false
  | .ninf, .ninf => false
  | .ninf, .pinf => true
  | .pinf, .ninf => false

/-- IEEE `≤` (false whenever a NaN is involved). -/
def F.leB : F → F → Bool
  | .nan, _ => false
  | _, .nan => false
  | .fin a, .fin b => a ≤ b
  | .fin _, .pinf => true
  | .pinf, .fin _ => false
  | .ninf, .fin _ => true
  | .fin _, .ninf => false
  | .pinf, .pinf => true
  | .ninf, .ninf => true
  | .ninf, .pinf => true
  | .pinf, .ninf => false

/-- IEEE `>`. -/
def F.gtB (a b : F) : Bool := F.ltB b a

/-- IEEE `≥`. -/
def F.geB (a b : F) : Bool := F.leB b a

/-- A 2-vector of `F` values. -/
structure FVec2 where
  x : F
  y : F
deriving DecidableEq, Repr

/-- `Vector2::dot` in the `F` model. -/
def FVec2.dot (a b : FVec2) : F := (a.x.mul b.x).add (a.y.mul b.y)

/-- `a - b` componentwise in the `F` model. -/
def FVec2.sub (a b : FVec2) : FVec2 := ⟨a.x.sub b.x, a.y.sub b.y⟩

/-- `ShapeHitInfo` in the `F` model (the `length` and `x` fields hold
whatever `f64` value the source computed, including NaN). -/
structure FShapeHitInfo where
  length : F
  x : F
  side : Fin 4
deriving DecidableEq, Repr

/-- `AxisAlignedBox` in the `F` model. -/
structure FAxisAlignedBox where
  min : FVec2
  max : FVec2
deriving DecidableEq, Repr

/-- `AxisAlignedBox::ray_cast` (`src/raycaster/shape.rs` lines 44-78) in
the `F` model: the same expression tree as `AxisAlignedBox.ray_cast`,
with every `f64` operation given its IEEE semantics. -/
def FAxisAlignedBox.ray_cast (self : FAxisAlignedBox) (pos dir : FVec2) :
    Option FShapeHitInfo :=
  let c1 : F × Fin 4 := if dir.x.gtB (F.fin 0) then (self.min.x, 0) else (self.max.x, 1)
  let a := (c1.1.sub pos.x).div dir.x
  let y := (a.mul dir.y).add pos.y
  if (y.geB self.min.y && y.leB self.max.y && (a.add (F.fin (1/1000))).geB (F.fin 0)) then
    some ⟨a, (y.sub self.min.y).div (self.max.y.sub self.min.y), c1.2⟩
  else
    let c2 : F × Fin 4 := if dir.y.gtB (F.fin 0) then (self.min.y, 2) else (self.max.y, 3)
    let a2 := (c2.1.sub pos.y).div dir.y
    let x := (a2.mul dir.x).add pos.x
    if (x.geB self.min.x && x.leB self.max.x && (a2.add (F.fin (1/1000))).geB (F.fin 0)) then
      some ⟨a2, (x.sub self.min.x).div (self.max.x.sub self.min.x), c2.2⟩
    else none

/-- The unit box `AxisAlignedBox{(0,0),(1,1)}` that `Shape::Box`
delegates to, in the `F` model. -/
def FBoxUnit : FAxisAlignedBox :=
  ⟨⟨F.fin 0, F.fin 0⟩, ⟨F.fin 1, F.fin 1⟩⟩

/-- `Line` in the `F` model. -/
structure FLine where
  startP : FVec2
  endP : FVec2
deriving DecidableEq, Repr

/-- `Line::ray_cast` (`src/raycaster/shape.rs` lines 129-159) in the `F`
model: the source's expression tree with IEEE semantics, including the
`div = 1.0 / (...)` reciprocal followed by multiplication. -/
def FLine.ray_cast (self : FLine) (pos dir : FVec2) : Option FShapeHitInfo :=
  let x1 := pos.x
  let y1 := pos.y
  let x2 := pos.x.add dir.x
  let y2 := pos.y.add dir.y
  let x3 := self.startP.x
  let y3 := self.startP.y
  let x4 := self.endP.x
  let y4 := self.endP.y
  let div := (F.fin 1).div ((((x1.sub x2).mul (y3.sub y4)).sub ((y1.sub y2).mul (x3.sub x4))))
  let t := div.mul (((x1.sub x3).mul (y3.sub y4)).sub ((y1.sub y3).mul (x3.sub x4)))
  let u := div.mul (((x1.sub x3).mul (y1.sub y2)).sub ((y1.sub y3).mul (x1.sub x2)))
  if ((t.add (F.fin (1/1000))).ltB (F.fin 0) || u.ltB (F.fin 0) || u.gtB (F.fin 1)) then
    none
  else
    let side : Fin 4 := if ((self.endP.sub self.startP).dot dir).gtB (F.fin 0) then 0 else 1
    some ⟨t, u, side⟩

/-! ## Map, tiles and the grid ray caster (`src/raycaster.rs` lines
85-297; identical code in `src/raycaster/map.rs`) -/

/-- `Tile` from `src/raycaster.rs`.  The source's `colors: [Color; 4]`
is a total function on `Fin 4`. -/
structure Tile where
  shape : Shape
  colors : Fin 4 → Color
  floor_color : Color
  floor_height : ℚ
  ceiling_color : Color
  ceiling_height : ℚ

/-- `Map` from `src/raycaster.rs`.  The construction API maintains
`tiles.length = width * height`; the embedding carries the list and the
dimensions separately. -/
structure Map where
  width : ℕ
  height : ℕ
  tiles : List Tile
  wall_height : ℚ

/-- `Map::get_tile` from `src/raycaster.rs`, lines 118-127: bounds
checked, out-of-bounds coordinates give `none`. -/
def Map.get_tile (self : Map) (x y : ℤ) : Option Tile :=
  if x < 0 ∨ x ≥ (self.width : ℤ) then none
  else if y < 0 ∨ y ≥ (self.height : ℤ) then none
  else self.tiles.get? (y.toNat * self.width + x.toNat)

/-- `WallHit` from `src/raycaster.rs` (the borrowed `&Color` is copied
by value). -/
structure WallHitR where
  length : ℚ
  x : ℚ
  color : Color

/-- `FloorHit` from `src/raycaster.rs`. -/
structure FloorHitR where
  pos1 : Vec2
  pos2 : Vec2
  dist1 : ℚ
  dist2 : ℚ
  floor_color : Color
  floor_height : ℚ
  ceiling_color : Color
  ceiling_height : ℚ

/-- `Hit` from `src/raycaster.rs`. -/
inductive HitR where
  | WallHit : WallHitR → HitR
  | FloorHit : FloorHitR → HitR

/-- The `f64 → i32` conversion performed by `pos.cast().unwrap()`
(cgmath goes through `num_traits::ToPrimitive::to_i32`, which truncates
toward zero). -/
def truncQ (q : ℚ) : ℤ := if q < 0 then -(⌊-q⌋) else ⌊q⌋

/-- An integer grid coordinate pair as a `Vec2` (the `cast` back to
`f64` used for `map_pos.cast().unwrap()`). -/
def vecOfInt (p : ℤ × ℤ) : Vec2 := ⟨(p.1 : ℚ), (p.2 : ℚ)⟩

/-- The source's `hit_callback: &mut dyn FnMut(Hit) -> bool` is a
stateful closure; the embedding threads its captured state `σ`
explicitly: a callback maps a state and a hit to a new state and the
"stop" flag. -/
def Callback (σ : Type) : Type := σ → HitR → σ × Bool

/-- The `while !hit` loop of `Map::ray_cast` (`src/raycaster.rs` lines
184-242).  One recursive call is one loop iteration.  `fuel` bounds the
number of iterations; the returned flag is `true` when the source loop
returned (by the callback's stop signal or by leaving the map) and
`false` when the fuel ran out first (the termination theorem shows fuel
`width + height` never runs out).  The result also carries the list of
hits emitted to the callback, in order, and the callback's final
state. -/
def Map.rayLoop {σ : Type} (m : Map) (fns : FloatFns) (pos dir delta_dist : Vec2)
    (stepx stepy : ℤ) (cb : Callback σ) :
    ℕ → ℤ × ℤ → Vec2 → Vec2 → ℚ → σ → List HitR × σ × Bool
  | 0, _, _, _, _, s => ([], s, false)
  | fuel + 1, map_pos, side_dist, last_pos, last_dist, s =>
    -- step selection: `side_dist.x < side_dist.y` picks the x axis
    let sel : ℚ × Vec2 × Vec2 × (ℤ × ℤ) × ℕ :=
      if side_dist.x < side_dist.y then
        (side_dist.x, pos + side_dist.x • dir,
         ⟨side_dist.x + delta_dist.x, side_dist.y⟩, (map_pos.1 + stepx, map_pos.2), 0)
      else
        (side_dist.y, pos + side_dist.y • dir,
         ⟨side_dist.x, side_dist.y + delta_dist.y⟩, (map_pos.1, map_pos.2 + stepy), 1)
    let dist := sel.1
    let tp := sel.2.1
    let side_dist' := sel.2.2.1
    let map_pos' := sel.2.2.2.1
    let side := sel.2.2.2.2
    match m.get_tile map_pos.1 map_pos.2 with
    | none => ([], s, true)
    | some tile =>
        let fh : FloorHitR :=
          ⟨last_pos - vecOfInt map_pos, tp - vecOfInt map_pos, last_dist, dist,
           tile.floor_color, tile.floor_height, tile.ceiling_color, tile.ceiling_height⟩
        let c1 := cb s (HitR.FloorHit fh)
        if c1.2 then ([HitR.FloorHit fh], c1.1, true)
        else
          let tile_pos := tp - vecOfInt map_pos'
          match m.get_tile map_pos'.1 map_pos'.2 with
          | some tile2 =>
              match tile2.shape.ray_cast fns tile_pos dir with
              | some shape_info =>
                  let perp_wall_dist :=
                    if side = 0 then side_dist'.x - delta_dist.x
                    else side_dist'.y - delta_dist.y
                  let wh : WallHitR :=
                    ⟨shape_info.length + perp_wall_dist, shape_info.x,
                     tile2.colors shape_info.side⟩
                  let c2 := cb c1.1 (HitR.WallHit wh)
                  if c2.2 then ([HitR.FloorHit fh, HitR.WallHit wh], c2.1, true)
                  else
                    let r := m.rayLoop fns pos dir delta_dist stepx stepy cb
                        fuel map_pos' side_dist' tp dist c2.1
                    (HitR.FloorHit fh :: HitR.WallHit wh :: r.1, r.2)
              | none =>
                  let r := m.rayLoop fns pos dir delta_dist stepx stepy cb
                      fuel map_pos' side_dist' tp dist c1.1
                  (HitR.FloorHit fh :: r.1, r.2)
          | none =>
              let r := m.rayLoop fns pos dir delta_dist stepx stepy cb
                  fuel map_pos' side_dist' tp dist c1.1
              (HitR.FloorHit fh :: r.1, r.2)

/-- `Map::ray_cast` from `src/raycaster.rs`, lines 136-243: initial
cell setup, the pre-loop shape test of the origin's own cell, then the
DDA loop (`Map.rayLoop`). -/
def Map.ray_cast {σ : Type} (m : Map) (fns : FloatFns) (pos dir : Vec2)
    (cb : Callback σ) (s : σ) (fuel : ℕ) : List HitR × σ × Bool :=
  let map_pos : ℤ × ℤ := (truncQ pos.x, truncQ pos.y)
  let delta_dist : Vec2 := ⟨1 / |dir.x|, 1 / |dir.y|⟩
  let side_dist : Vec2 :=
    ⟨if dir.x < 0 then (pos.x - (map_pos.1 : ℚ)) * delta_dist.x
      else ((map_pos.1 : ℚ) + 1 - pos.x) * delta_dist.x,
     if dir.y < 0 then (pos.y - (map_pos.2 : ℚ)) * delta_dist.y
      else ((map_pos.2 : ℚ) + 1 - pos.y) * delta_dist.y⟩
  let stepx : ℤ := if dir.x < 0 then -1 else 1
  let stepy : ℤ := if dir.y < 0 then -1 else 1
  match m.get_tile map_pos.1 map_pos.2 with
  | none => ([], s, true)
  | some tile =>
      match tile.shape.ray_cast fns (pos - vecOfInt map_pos) dir with
      | some shape_info =>
          let wh : WallHitR :=
            ⟨shape_info.length, shape_info.x, tile.colors shape_info.side⟩
          let c := cb s (HitR.WallHit wh)
          if c.2 then ([HitR.WallHit wh], c.1, true)
          else
            let r := m.rayLoop fns pos dir delta_dist stepx stepy cb
                fuel map_pos side_dist pos 0 c.1
            (HitR.WallHit wh :: r.1, r.2)
      | none =>
          m.rayLoop fns pos dir delta_dist stepx stepy cb
            fuel map_pos side_dist pos 0 s

/-! ## Camera (`src/raycaster.rs` lines 13-64) -/

/-- `Camera` from `src/raycaster.rs`. -/
structure Camera where
  pos : Vec2
  dir_front : Vec2
  dir_right : Vec2
  plane : Vec2
  z : ℚ
deriving DecidableEq, Repr

/-- Application of the source's `Matrix2::new(rot_cos, rot_sin,
-rot_sin, rot_cos)` (column-major, so the columns are `(c, s)` and
`(-s, c)`) to a vector. -/
def rotApply (c s : ℚ) (v : Vec2) : Vec2 :=
  ⟨c * v.x - s * v.y, s * v.x + c * v.y⟩

/-- `Camera::rotate` from `src/raycaster.rs`, lines 32-39, with
`radians.cos()` and `radians.sin()` abstracted as the exact values
`rot_cos`, `rot_sin` (for `rotate(-θ)` they become `(rot_cos,
-rot_sin)`). -/
def Camera.rotate (self : Camera) (rot_cos rot_sin : ℚ) : Camera :=
  { self with
    dir_front := rotApply rot_cos rot_sin self.dir_front
    dir_right := rotApply rot_cos rot_sin self.dir_right
    plane := rotApply rot_cos rot_sin self.plane }

/-! ## Renderer (`src/raycaster.rs` lines 299-446)

The renderer's `temp_screen: Vec<[f64; 4]>` is modelled as a total
function `ℕ → Rgba` on flat indices (`index = y * width + x`), so the
embedding is total; all claims below only exercise in-bounds indices,
where the model agrees with the `Vec`. -/

/-- The `f64 → i32` saturating truncation performed by Rust's `as i32`
on a float. -/
def ratToI32 (q : ℚ) : ℤ := max (-(2 ^ 31)) (min (2 ^ 31 - 1) (truncQ q))

/-- The `f64 → usize` saturating truncation performed by Rust's
`as usize` on a float (negative values saturate to 0). -/
def ratToUsize (q : ℚ) : ℕ := min (max 0 (truncQ q)).toNat (2 ^ 64 - 1)

/-- The `i32 → usize` conversion performed by Rust's `as usize` on an
integer: a bitwise reinterpretation, i.e. reduction modulo `2^64`
(64-bit target), so a negative `i32` becomes a huge `usize`. -/
def intToUsize (n : ℤ) : ℕ := (n % 2 ^ 64).toNat

/-- `Renderer::set_pixel` from `src/raycaster.rs`, lines 382-393,
acting on the flat screen.  Returns the updated screen and the flag
`temp_screen[index][3] == 0.0`. -/
def set_pixel (width : ℕ) (temp : ℕ → Rgba) (x y : ℕ) (color : Rgba) :
    (ℕ → Rgba) × Bool :=
  let index := y * width + x
  let p := temp index
  let p' : Rgba := fun i => if (i : ℕ) < 3 then p i + p 3 * color 3 * color i else p 3 * (1 - color 3)
  let temp' := Function.update temp index p'
  (temp', decide (temp' index 3 = 0))

/-- `Renderer::pixel_finished` from `src/raycaster.rs`, lines
395-402. -/
def pixel_finished (width : ℕ) (temp : ℕ → Rgba) (x y : ℕ) : Bool :=
  decide (temp (y * width + x) 3 = 0)

/-- The `start`/`end` screen rows of `Renderer::render_wall`
(`src/raycaster.rs` lines 405-408): `line_height`, `mid_point` and the
half-open vertical span, in `i32` arithmetic (Rust `/` on `i32`
truncates toward zero, `Int.tdiv` here). -/
def wallSpan (height : ℕ) (cameraZ wall_height length : ℚ) : ℤ × ℤ :=
  let line_height := ratToI32 ((height : ℚ) / length * wall_height)
  let mid_point := Int.tdiv (height : ℤ) 2 +
    ratToI32 ((cameraZ - wall_height / 2) * (height : ℚ) / 2 / length)
  (Int.tdiv (-line_height) 2 + mid_point, Int.tdiv line_height 2 + mid_point)

/-- `Renderer::render_wall` from `src/raycaster.rs`, lines 404-426.
Returns the updated screen and `drawn`, the number of pixels this call
made fully opaque. -/
def render_wall (width height : ℕ) (temp : ℕ → Rgba) (x : ℕ) (wall_hit : WallHitR)
    (cameraZ wall_height : ℚ) : (ℕ → Rgba) × ℕ :=
  let se := wallSpan height cameraZ wall_height wall_hit.length
  let draw_start := intToUsize (max se.1 0)
  let draw_end := intToUsize (min se.2 (height : ℤ))
  (List.range' draw_start (draw_end - draw_start)).foldl
    (fun acc y =>
      if pixel_finished width acc.1 x y then acc
      else
        let color := wall_hit.color.sample
          ⟨wall_hit.x, (((y : ℤ) - se.1 : ℤ) : ℚ) / ((se.2 - se.1 : ℤ) : ℚ)⟩
        let r := set_pixel width acc.1 x y color
        (r.1, if r.2 then acc.2 + 1 else acc.2))
    (temp, 0)

/-- `Renderer::y_from_floor_dist` from `src/raycaster.rs`, lines
428-437. -/
def y_from_floor_dist (height : ℕ) (dist z : ℚ) : ℕ :=
  if dist = 0 then height
  else min (ratToUsize ((height : ℚ) * (dist - z + 1) / (2 * dist))) height

/-- `Renderer::y_from_ceiling_dist` from `src/raycaster.rs`, lines
439-445. -/
def y_from_ceiling_dist (height : ℕ) (dist z : ℚ) : ℕ :=
  if dist = 0 then 0
  else min (ratToUsize ((height : ℚ) * (dist - z - 1) / (2 * dist))) (height / 2)

/-- The floor/ceiling pass of the per-column render callback
(`src/raycaster.rs` lines 330-367): the body of one
`for y in start..end` iteration, shared by the floor and the ceiling
loop (they differ in the `current_dist` formula and the sampled
surface, passed in as `currentDist` and `colorOf`). -/
def floorRow (width : ℕ) (x : ℕ) (fh : FloorHitR) (currentDist : ℕ → ℚ)
    (colorOf : FloorHitR → Vec2 → Rgba) (acc : (ℕ → Rgba) × ℕ) (y : ℕ) :
    (ℕ → Rgba) × ℕ :=
  let current_dist := currentDist y
  if pixel_finished width acc.1 x y then acc
  else
    let weight := (current_dist - fh.dist1) / (fh.dist2 - fh.dist1)
    let floor_pos := weight • fh.pos2 + (1 - weight) • fh.pos1
    let color := colorOf fh floor_pos
    let r := set_pixel width acc.1 x y color
    (r.1, if r.2 && decide (acc.2 ≠ 0) then acc.2 - 1 else acc.2)

/-- The `Hit::FloorHit` arm of the closure `Renderer::render` passes to
`Map::ray_cast` (`src/raycaster.rs` lines 330-368): the floor pass then
the ceiling pass over the screen rows covered by the crossed cell,
followed by the `left == 0` stop signal. -/
def floorArm (width height : ℕ) (x : ℕ) (cameraZ : ℚ) (fh : FloorHitR)
    (temp : ℕ → Rgba) (left : ℕ) : ((ℕ → Rgba) × ℕ) × Bool :=
  let z := fh.floor_height * 2 - cameraZ
  let start := y_from_floor_dist height fh.dist2 z
  let stop := y_from_floor_dist height fh.dist1 z
  let h : ℚ := (height : ℚ)
  let acc1 := (List.range' start (stop - start)).foldl
    (floorRow width x fh (fun y => h * (1 - z) / (2 * (y : ℚ) - h))
      (fun fh p => fh.floor_color.sample p))
    (temp, left)
  let z2 := fh.ceiling_height * 2 - cameraZ - 2
  let start2 := y_from_ceiling_dist height fh.dist1 z2
  let stop2 := y_from_ceiling_dist height fh.dist2 z2
  let acc2 := (List.range' start2 (stop2 - start2)).foldl
    (floorRow width x fh (fun y => h * (z2 + 1) / (h - 2 * (y : ℚ)))
      (fun fh p => fh.ceiling_color.sample p))
    acc1
  (acc2, decide (acc2.2 = 0))

/-- The `Hit::WallHit` arm of the closure `Renderer::render` passes to
`Map::ray_cast` (`src/raycaster.rs` lines 326-329): `left` drops by the
number of pixels `render_wall` made opaque; the stop signal is
`left == 0`. -/
def wallArm (width height : ℕ) (x : ℕ) (cameraZ wall_height : ℚ) (wh : WallHitR)
    (temp : ℕ → Rgba) (left : ℕ) : ((ℕ → Rgba) × ℕ) × Bool :=
  let r := render_wall width height temp x wh cameraZ wall_height
  let left' := left - r.2
  ((r.1, left'), decide (left' = 0))

/-- The per-column closure `Renderer::render` hands to `Map::ray_cast`
(`src/raycaster.rs` lines 325-369), as a state machine on
`(temp_screen, left)`. -/
def columnCallback (width height : ℕ) (x : ℕ) (cameraZ wall_height : ℚ) :
    Callback ((ℕ → Rgba) × ℕ) :=
  fun state hit =>
    match hit with
    | .WallHit wh => wallArm width height x cameraZ wall_height wh state.1 state.2
    | .FloorHit fh => floorArm width height x cameraZ fh state.1 state.2

/-- The number of pixels of screen column `x` that are not yet fully
opaque (`remaining_alpha ≠ 0`).  The source's `left` counter is claimed
to track this quantity. -/
def countLeft (width height : ℕ) (temp : ℕ → Rgba) (x : ℕ) : ℕ :=
  ((Finset.range height).filter (fun y => temp (y * width + x) 3 ≠ 0)).card

/-- The initial value of a `temp_screen` pixel (`[0.0, 0.0, 0.0, 1.0]`,
`src/raycaster.rs` line 318). -/
def initPix : Rgba := ![0, 0, 0, 1]

/-- The DDA termination measure: how many grid steps the traversal can
still take from cell `mp` before the stepped coordinate leaves the
`width × height` grid, given the fixed per-axis step directions.  Each
loop iteration decreases it by exactly one. -/
def stepsToExit (width height : ℕ) (stepx stepy : ℤ) (mp : ℤ × ℤ) : ℤ :=
  (if stepx = 1 then (width : ℤ) - mp.1 else mp.1 + 1) +
  (if stepy = 1 then (height : ℤ) - mp.2 else mp.2 + 1)

/-! ## Specification predicates on emitted hit sequences -/

/-- The smallest distance at which a hit event occurs: a `WallHit`
occurs at its `length`, a `FloorHit` over `[dist1, dist2]`. -/
def hitLo : HitR → ℚ
  | .WallHit wh => wh.length
  | .FloorHit fh => fh.dist1

/-- The largest distance at which a hit event occurs. -/
def hitHi : HitR → ℚ
  | .WallHit wh => wh.length
  | .FloorHit fh => fh.dist2

/-- The strict ordering property asserted of the hit sequence: every
hit occurs at distances strictly greater than those of every previously
emitted hit. -/
def strictlyOrderedB : List HitR → Bool
  | [] => true
  | h :: t => (t.all fun h2 => decide (hitHi h < hitLo h2)) && strictlyOrderedB t

/-- The ordering property the emitted hit sequence actually satisfies,
relative to a running entry distance `d` (the distance at which the
traversal entered the current cell): a `FloorHit` starts exactly at `d`,
extends to `dist2 ≥ d` and advances the entry distance to `dist2`; a
`WallHit` occurs no earlier than `d - 1/1000` (the shape tests accept
intersections down to the `-0.001` tolerance). -/
def OrderedFrom : ℚ → List HitR → Prop
  | _, [] => True
  | d, .WallHit wh :: t => d - 1/1000 ≤ wh.length ∧ OrderedFrom d t
  | d, .FloorHit fh :: t => fh.dist1 = d ∧ d ≤ fh.dist2 ∧ OrderedFrom fh.dist2 t

instance : ∀ d l, Decidable (OrderedFrom d l)
  | _, [] => by unfold OrderedFrom; exact inferInstance
  | d, .WallHit wh :: t => by
      unfold OrderedFrom
      have := instDecidableOrderedFrom d t
      exact inferInstance
  | d, .FloorHit fh :: t => by
      unfold OrderedFrom
      have := instDecidableOrderedFrom fh.dist2 t
      exact inferInstance

/-- Checks that a hit sequence stops as soon as the callback signals
"stop": running the callback along the list from state `s`, every
answer except possibly the one to the final hit is `false`. -/
def stopsAfterTrue {σ : Type} (cb : Callback σ) : σ → List HitR → Bool
  | _, [] => true
  | s, h :: t =>
      let c := cb s h
      if c.2 then t.isEmpty else stopsAfterTrue cb c.1 t

/-! ## Theorems -/

@[simp] theorem Vec2.add_x (a b : Vec2) : (a + b).x = a.x + b.x := rfl

@[simp] theorem Vec2.add_y (a b : Vec2) : (a + b).y = a.y + b.y := rfl

@[simp] theorem Vec2.sub_x (a b : Vec2) : (a - b).x = a.x - b.x := rfl

@[simp] theorem Vec2.sub_y (a b : Vec2) : (a - b).y = a.y - b.y := rfl

@[simp] theorem Vec2.smul_x (q : ℚ) (v : Vec2) : (q • v).x = q * v.x := rfl

@[simp] theorem Vec2.smul_y (q : ℚ) (v : Vec2) : (q • v).y = q * v.y := rfl

@[simp] theorem Vec2.divScalar_x (v : Vec2) (q : ℚ) : (v.divScalar q).x = v.x / q := rfl

@[simp] theorem Vec2.divScalar_y (v : Vec2) (q : ℚ) : (v.divScalar q).y = v.y / q := rfl

/-- C9: for every camera state and exact rotation values `(cos θ, sin θ)`
(characterised by `cos² + sin² = 1`), `Camera::rotate(θ)` followed by
`Camera::rotate(-θ)` (whose cosine/sine pair is `(cos θ, -sin θ)`)
restores `dir_front`, `dir_right` and `plane` exactly, and `rotate`
leaves `pos` and `z` unchanged. -/
theorem c9_rotate_roundtrip (cam : Camera) (c s : ℚ) (h : c ^ 2 + s ^ 2 = 1) :
    (cam.rotate c s).rotate c (-s) = cam ∧
    (cam.rotate c s).pos = cam.pos ∧ (cam.rotate c s).z = cam.z := by
  have key : ∀ v : Vec2, rotApply c (-s) (rotApply c s v) = v := by
    intro ⟨vx, vy⟩
    simp only [rotApply, Vec2.mk.injEq]
    constructor
    · linear_combination vx * h
    · linear_combination vy * h
  refine ⟨?_, rfl, rfl⟩
  obtain ⟨pos, df, dr, pl, z⟩ := cam
  simp only [Camera.rotate, key]

/-- C9 witness: the round trip at a concrete camera and the exact
rotation pair `(3/5, 4/5)`. -/
theorem c9_rotate_roundtrip_witness :
    ((Camera.mk ⟨5, 5⟩ ⟨1, 0⟩ ⟨0, 1⟩ ⟨0, 1/2⟩ 0).rotate (3/5) (4/5)).rotate (3/5) (-(4/5)) =
      Camera.mk ⟨5, 5⟩ ⟨1, 0⟩ ⟨0, 1⟩ ⟨0, 1/2⟩ 0 ∧
    ((Camera.mk ⟨5, 5⟩ ⟨1, 0⟩ ⟨0, 1⟩ ⟨0, 1/2⟩ 0).rotate (3/5) (4/5)).pos =
      (Camera.mk ⟨5, 5⟩ ⟨1, 0⟩ ⟨0, 1⟩ ⟨0, 1/2⟩ 0).pos ∧
    ((Camera.mk ⟨5, 5⟩ ⟨1, 0⟩ ⟨0, 1⟩ ⟨0, 1/2⟩ 0).rotate (3/5) (4/5)).z =
      (Camera.mk ⟨5, 5⟩ ⟨1, 0⟩ ⟨0, 1⟩ ⟨0, 1/2⟩ 0).z :=
  c9_rotate_roundtrip (Camera.mk ⟨5, 5⟩ ⟨1, 0⟩ ⟨0, 1⟩ ⟨0, 1/2⟩ 0) (3/5) (4/5) (by norm_num)

/-- Helper for C7/C8: `set_pixel` on an already fully opaque pixel is a
no-op that reports completion. -/
theorem set_pixel_of_opaque (width : ℕ) (temp : ℕ → Rgba) (x y : ℕ) (c2 : Rgba)
    (h0 : temp (y * width + x) 3 = 0) :
    set_pixel width temp x y c2 = (temp, true) := by
  simp only [set_pixel]
  have hpix : (fun i : Fin 4 =>
      if (i : ℕ) < 3 then
        temp (y * width + x) i + temp (y * width + x) 3 * c2 3 * c2 i
      else temp (y * width + x) 3 * (1 - c2 3)) = temp (y * width + x) := by
    funext i
    fin_cases i <;> simp [h0]
  rw [hpix, Function.update_eq_self]
  simp [h0]

/-- Helper: the remaining alpha of the pixel written by `set_pixel`. -/
theorem set_pixel_alpha (width : ℕ) (temp : ℕ → Rgba) (x y : ℕ) (color : Rgba) :
    (set_pixel width temp x y color).1 (y * width + x) 3 =
      temp (y * width + x) 3 * (1 - color 3) := by
  have h3 : ¬ (((3 : Fin 4) : ℕ) < 3) := by decide
  simp only [set_pixel, Function.update_same]
  rw [if_neg h3]

/-- Helper: the reported flag of `set_pixel` is the test that the
written pixel's remaining alpha is zero. -/
theorem set_pixel_flag (width : ℕ) (temp : ℕ → Rgba) (x y : ℕ) (color : Rgba) :
    (set_pixel width temp x y color).2 =
      decide ((set_pixel width temp x y color).1 (y * width + x) 3 = 0) := rfl

/-- C7: blending a fully opaque sample (`alpha = 1`) via `set_pixel`
makes the pixel's remaining alpha exactly 0 and makes `set_pixel`
report completion; every subsequent `set_pixel` call on that pixel, with
any color, leaves the pixel (rgb and remaining alpha) unchanged and
still reports completion; and the blend follows
`new_rgb = rgb + remaining_alpha * sample_alpha * sample_rgb` with
`remaining_alpha *= (1 - sample_alpha)`. -/
theorem c7_opaque_blend (width : ℕ) (temp : ℕ → Rgba) (x y : ℕ) (color : Rgba)
    (h : color 3 = 1) :
    (set_pixel width temp x y color).1 (y * width + x) 3 = 0 ∧
    (set_pixel width temp x y color).2 = true ∧
    (∀ c2 : Rgba,
      (set_pixel width (set_pixel width temp x y color).1 x y c2).1 =
        (set_pixel width temp x y color).1 ∧
      (set_pixel width (set_pixel width temp x y color).1 x y c2).2 = true) ∧
    (∀ i : Fin 4, (i : ℕ) < 3 →
      (set_pixel width temp x y color).1 (y * width + x) i =
        temp (y * width + x) i +
          temp (y * width + x) 3 * color 3 * color i) := by
  have halpha : (set_pixel width temp x y color).1 (y * width + x) 3 = 0 := by
    rw [set_pixel_alpha, h]
    ring
  refine ⟨halpha, ?_, ?_, ?_⟩
  · rw [set_pixel_flag, halpha]
    simp
  · intro c2
    have hfix := set_pixel_of_opaque width (set_pixel width temp x y color).1 x y c2 halpha
    exact ⟨by rw [hfix], by rw [hfix]⟩
  · intro i hi
    simp [set_pixel, Function.update_same, hi]

/-- C7 witness: the opaque-blend behaviour at a concrete pixel state
and a concrete fully opaque color. -/
theorem c7_opaque_blend_witness :
    (set_pixel 1 (fun _ => initPix) 0 0 ![1/2, 1/2, 1/2, 1]).1 (0 * 1 + 0) 3 = 0 ∧
    (set_pixel 1 (fun _ => initPix) 0 0 ![1/2, 1/2, 1/2, 1]).2 = true ∧
    (∀ c2 : Rgba,
      (set_pixel 1 (set_pixel 1 (fun _ => initPix) 0 0 ![1/2, 1/2, 1/2, 1]).1 0 0 c2).1 =
        (set_pixel 1 (fun _ => initPix) 0 0 ![1/2, 1/2, 1/2, 1]).1 ∧
      (set_pixel 1 (set_pixel 1 (fun _ => initPix) 0 0 ![1/2, 1/2, 1/2, 1]).1 0 0 c2).2 = true) ∧
    (∀ i : Fin 4, (i : ℕ) < 3 →
      (set_pixel 1 (fun _ => initPix) 0 0 ![1/2, 1/2, 1/2, 1]).1 (0 * 1 + 0) i =
        (fun _ : ℕ => initPix) (0 * 1 + 0) i +
          (fun _ : ℕ => initPix) (0 * 1 + 0) 3 * (![1/2, 1/2, 1/2, 1] : Rgba) 3 *
            (![1/2, 1/2, 1/2, 1] : Rgba) i) :=
  c7_opaque_blend 1 (fun _ => initPix) 0 0 ![1/2, 1/2, 1/2, 1] (by norm_num)

/-- C10: `AxisAlignedBox::ray_cast` tests the x-axis slab first and
returns the x-face hit whenever it passes the perpendicular-bound and
tolerance checks; the candidate x face is chosen solely by the sign
test `dir.x > 0` (`min.x`, side 0) versus otherwise (`max.x`, side 1),
and likewise `dir.y > 0` selects `min.y` (side 2) versus `max.y`
(side 3); and for a general ray the returned hit need not be the
nearest face of the box: at the concrete input in the last conjunct the
code returns the `min.x` face at (negative, tolerance-admitted) length
`-1/2000` although the ray's nearest forward boundary crossing is on
the `max.y` face, at parameter `1/2 ≥ 0`. -/
theorem c10_x_slab_priority :
    (∀ (bx : AxisAlignedBox) (pos dir : Vec2) (a y : ℚ), dir.x ≠ 0 →
      a = ((if 0 < dir.x then bx.min.x else bx.max.x) - pos.x) / dir.x →
      y = a * dir.y + pos.y →
      y ≥ bx.min.y → y ≤ bx.max.y → a + 1/1000 ≥ 0 →
      bx.ray_cast pos dir =
        some ⟨a, (y - bx.min.y) / (bx.max.y - bx.min.y),
              if 0 < dir.x then 0 else 1⟩) ∧
    (∀ (bx : AxisAlignedBox) (pos dir : Vec2) (a y a2 x : ℚ), dir.y ≠ 0 →
      a = ((if 0 < dir.x then bx.min.x else bx.max.x) - pos.x) / dir.x →
      y = a * dir.y + pos.y →
      ¬ (y ≥ bx.min.y ∧ y ≤ bx.max.y ∧ a + 1/1000 ≥ 0) →
      a2 = ((if 0 < dir.y then bx.min.y else bx.max.y) - pos.y) / dir.y →
      x = a2 * dir.x + pos.x →
      x ≥ bx.min.x → x ≤ bx.max.x → a2 + 1/1000 ≥ 0 →
      bx.ray_cast pos dir =
        some ⟨a2, (x - bx.min.x) / (bx.max.x - bx.min.x),
              if 0 < dir.y then 2 else 3⟩) ∧
    ((AxisAlignedBox.mk ⟨0, 0⟩ ⟨1, 1⟩).ray_cast ⟨1/2000, 1/2⟩ ⟨1, 1⟩ =
        some ⟨-(1/2000), 999/2000, 0⟩ ∧
      (⟨1/2000, 1/2⟩ + (1/2 : ℚ) • (⟨1, 1⟩ : Vec2) : Vec2) = ⟨1001/2000, 1⟩ ∧
      (0 : ℚ) ≤ 1/2 ∧ (0 : ℚ) ≤ 1001/2000 ∧ (1001/2000 : ℚ) ≤ 1 ∧
      -(1/2000 : ℚ) < 1/2) := by
  refine ⟨?_, ?_, ?_⟩
  · intro bx pos dir a y hx ha hy h1 h2 h3
    by_cases hdx : 0 < dir.x
    · simp only [if_pos hdx] at ha ⊢
      simp only [AxisAlignedBox.ray_cast, if_pos hdx, ← ha, ← hy]
      rw [if_pos ⟨h1, h2, h3⟩]
    · simp only [if_neg hdx] at ha ⊢
      simp only [AxisAlignedBox.ray_cast, if_neg hdx, ← ha, ← hy]
      rw [if_pos ⟨h1, h2, h3⟩]
  · intro bx pos dir a y a2 x hyne ha hy hfail ha2 hx
    intro g1 g2 g3
    by_cases hdx : 0 < dir.x <;> by_cases hdy : 0 < dir.y
    · simp only [if_pos hdx] at ha
      simp only [if_pos hdy] at ha2 ⊢
      simp only [AxisAlignedBox.ray_cast, if_pos hdx, if_pos hdy,
        ← ha, ← hy, ← ha2, ← hx]
      rw [if_neg hfail, if_pos ⟨g1, g2, g3⟩]
    · simp only [if_pos hdx] at ha
      simp only [if_neg hdy] at ha2 ⊢
      simp only [AxisAlignedBox.ray_cast, if_pos hdx, if_neg hdy,
        ← ha, ← hy, ← ha2, ← hx]
      rw [if_neg hfail, if_pos ⟨g1, g2, g3⟩]
    · simp only [if_neg hdx] at ha
      simp only [if_pos hdy] at ha2 ⊢
      simp only [AxisAlignedBox.ray_cast, if_neg hdx, if_pos hdy,
        ← ha, ← hy, ← ha2, ← hx]
      rw [if_neg hfail, if_pos ⟨g1, g2, g3⟩]
    · simp only [if_neg hdx] at ha
      simp only [if_neg hdy] at ha2 ⊢
      simp only [AxisAlignedBox.ray_cast, if_neg hdx, if_neg hdy,
        ← ha, ← hy, ← ha2, ← hx]
      rw [if_neg hfail, if_pos ⟨g1, g2, g3⟩]
  · refine ⟨by norm_num [AxisAlignedBox.ray_cast], ?_, by norm_num, by norm_num,
      by norm_num, by norm_num⟩
    show Vec2.mk (1/2000 + 1/2 * 1) (1/2 + 1/2 * 1) = Vec2.mk (1001/2000) 1
    norm_num

/-- C10 witness: both slab-selection conjuncts applied at concrete
rays (an x-face hit with `dir.x > 0` and a fall-through y-face hit with
`dir.y > 0`). -/
theorem c10_x_slab_priority_witness :
    (AxisAlignedBox.mk ⟨0, 0⟩ ⟨1, 1⟩).ray_cast ⟨-1, 1/2⟩ ⟨1, 0⟩ =
      some ⟨1, 1/2, 0⟩ ∧
    (AxisAlignedBox.mk ⟨0, 0⟩ ⟨1, 1⟩).ray_cast ⟨1/2, -1⟩ ⟨0, 1⟩ =
      some ⟨1, 1/2, 2⟩ := by
  constructor
  · have h := c10_x_slab_priority.1 (AxisAlignedBox.mk ⟨0, 0⟩ ⟨1, 1⟩)
      ⟨-1, 1/2⟩ ⟨1, 0⟩ 1 (1/2) (by norm_num) (by norm_num) (by norm_num)
      (by norm_num) (by norm_num) (by norm_num)
    simpa using h
  · have h := c10_x_slab_priority.2.1 (AxisAlignedBox.mk ⟨0, 0⟩ ⟨1, 1⟩)
      ⟨1/2, -1⟩ ⟨0, 1⟩ 0 (-1) 1 (1/2) (by norm_num) (by norm_num) (by norm_num)
      (by norm_num) (by norm_num) (by norm_num) (by norm_num) (by norm_num)
      (by norm_num)
    simpa using h

/-- C5 counterexample: the claim quantifies over every origin,
direction and segment, but for a ray collinear with the segment (here a
horizontal segment and a horizontal ray on the same line, a case where
the intersection denominator is zero) the code returns `Some` with NaN
`length` and NaN `u` — even though NaN `u` does not lie in `[0, 1]`,
where the claim requires `None`. -/
theorem c5_counterexample :
    FLine.ray_cast ⟨⟨F.fin 0, F.fin (1/2)⟩, ⟨F.fin 1, F.fin (1/2)⟩⟩
        ⟨F.fin (-1), F.fin (1/2)⟩ ⟨F.fin 1, F.fin 0⟩ =
      some ⟨F.nan, F.nan, 0⟩ ∧
    (F.leB (F.fin 0) F.nan && F.leB F.nan (F.fin 1)) = false := by
  constructor
  · norm_num [FLine.ray_cast, FVec2.dot, FVec2.sub, F.sub, F.add, F.neg, F.mul,
      F.div, F.ltB, F.leB, F.gtB, F.geB]
  · rfl

/-- C5 (amended with the hypothesis that the ray is not parallel to the
segment, i.e. the intersection denominator is nonzero — forced by the
collinear counterexample): `Line::ray_cast` returns `None` exactly when
the ray parameter is before the origin beyond the tolerance
(`t + 0.001 < 0`) or the segment parameter `u` falls outside `[0, 1]`;
when it returns `Some`, `length = t` and `x = u` where `(t, u)` solve
the ray/segment intersection `pos + t·dir = start + u·(end - start)`,
and `side` is 0 if the segment's direction vector has positive dot
product with the ray direction, else 1. -/
theorem c5_line_characterization (ln : Line) (pos dir : Vec2) (D T U : ℚ)
    (hD : D = (pos.x - (pos.x + dir.x)) * (ln.startP.y - ln.endP.y) -
          (pos.y - (pos.y + dir.y)) * (ln.startP.x - ln.endP.x))
    (hT : T = ((pos.x - ln.startP.x) * (ln.startP.y - ln.endP.y) -
          (pos.y - ln.startP.y) * (ln.startP.x - ln.endP.x)) / D)
    (hU : U = ((pos.x - ln.startP.x) * (pos.y - (pos.y + dir.y)) -
          (pos.y - ln.startP.y) * (pos.x - (pos.x + dir.x))) / D)
    (hden : D ≠ 0) :
    (ln.ray_cast pos dir = none ↔ (T + 1/1000 < 0 ∨ U < 0 ∨ U > 1)) ∧
    (∀ info, ln.ray_cast pos dir = some info →
      info.length = T ∧ info.x = U ∧
      pos + T • dir = ln.startP + U • (ln.endP - ln.startP) ∧
      info.side = if 0 < (ln.endP - ln.startP).dot dir then 0 else 1) := by
  subst hD hT hU
  obtain ⟨⟨lsx, lsy⟩, ⟨lex, ley⟩⟩ := ln
  obtain ⟨px, py⟩ := pos
  obtain ⟨dx, dy⟩ := dir
  simp only at hden ⊢
  have hcast : Line.ray_cast ⟨⟨lsx, lsy⟩, ⟨lex, ley⟩⟩ ⟨px, py⟩ ⟨dx, dy⟩ =
      if ((px - lsx) * (lsy - ley) - (py - lsy) * (lsx - lex)) /
            ((px - (px + dx)) * (lsy - ley) - (py - (py + dy)) * (lsx - lex)) + 1/1000 < 0 ∨
          ((px - lsx) * (py - (py + dy)) - (py - lsy) * (px - (px + dx))) /
            ((px - (px + dx)) * (lsy - ley) - (py - (py + dy)) * (lsx - lex)) < 0 ∨
          ((px - lsx) * (py - (py + dy)) - (py - lsy) * (px - (px + dx))) /
            ((px - (px + dx)) * (lsy - ley) - (py - (py + dy)) * (lsx - lex)) > 1 then none
      else some ⟨((px - lsx) * (lsy - ley) - (py - lsy) * (lsx - lex)) /
            ((px - (px + dx)) * (lsy - ley) - (py - (py + dy)) * (lsx - lex)),
          ((px - lsx) * (py - (py + dy)) - (py - lsy) * (px - (px + dx))) /
            ((px - (px + dx)) * (lsy - ley) - (py - (py + dy)) * (lsx - lex)),
          if (Vec2.mk lex ley - Vec2.mk lsx lsy).dot ⟨dx, dy⟩ > 0 then 0 else 1⟩ := by
    simp only [Line.ray_cast, one_div_mul_eq_div]
  rw [hcast]
  set T := ((px - lsx) * (lsy - ley) - (py - lsy) * (lsx - lex)) /
      ((px - (px + dx)) * (lsy - ley) - (py - (py + dy)) * (lsx - lex)) with hT2
  set U := ((px - lsx) * (py - (py + dy)) - (py - lsy) * (px - (px + dx))) /
      ((px - (px + dx)) * (lsy - ley) - (py - (py + dy)) * (lsx - lex)) with hU2
  by_cases hcond : T + 1/1000 < 0 ∨ U < 0 ∨ U > 1
  · rw [if_pos hcond]
    refine ⟨iff_of_true rfl hcond, ?_⟩
    intro info heq
    exact absurd heq (by simp)
  · rw [if_neg hcond]
    refine ⟨iff_of_false (by simp) hcond, ?_⟩
    intro info heq
    have h2 := Option.some.inj heq
    subst h2
    refine ⟨rfl, rfl, ?_, rfl⟩
    show Vec2.mk (px + T * dx) (py + T * dy) =
      Vec2.mk (lsx + U * (lex - lsx)) (lsy + U * (ley - lsy))
    rw [Vec2.mk.injEq, hT2, hU2]
    have hDD : ((px - (px + dx)) * (lsy - ley) - (py - (py + dy)) * (lsx - lex)) *
        ((px - (px + dx)) * (lsy - ley) - (py - (py + dy)) * (lsx - lex))⁻¹ = 1 :=
      mul_inv_cancel₀ hden
    constructor
    · linear_combination (lsx - px) * hDD
    · linear_combination (lsy - py) * hDD

/-- C5 witness: the characterisation applied to a concrete
non-parallel ray/segment pair. -/
theorem c5_line_characterization_witness :
    ((Line.mk ⟨2, -1⟩ ⟨2, 1⟩).ray_cast ⟨0, 0⟩ ⟨1, 0⟩ = none ↔
      ((2 : ℚ) + 1/1000 < 0 ∨ (1/2 : ℚ) < 0 ∨ (1/2 : ℚ) > 1)) ∧
    (∀ info, (Line.mk ⟨2, -1⟩ ⟨2, 1⟩).ray_cast ⟨0, 0⟩ ⟨1, 0⟩ = some info →
      info.length = 2 ∧ info.x = 1/2 ∧
      (⟨0, 0⟩ : Vec2) + (2 : ℚ) • (⟨1, 0⟩ : Vec2) =
        (⟨2, -1⟩ : Vec2) + (1/2 : ℚ) • ((⟨2, 1⟩ : Vec2) - ⟨2, -1⟩) ∧
      info.side = if 0 < ((⟨2, 1⟩ : Vec2) - ⟨2, -1⟩).dot ⟨1, 0⟩ then 0 else 1) :=
  c5_line_characterization (Line.mk ⟨2, -1⟩ ⟨2, 1⟩) ⟨0, 0⟩ ⟨1, 0⟩ 2 2 (1/2)
    (by norm_num) (by norm_num) (by norm_num) (by norm_num)

/-- C4 counterexample: a tangent ray.  For the circle of radius `1/2`
centred at `(1/2, 1/2)` and the ray from `(-1, 0)` with direction
`(1, 0)`, the quadratic computed by the code is `t² - 3t + 9/4` (so the
discriminant is zero and `t = 3/2 ≥ 0` is a real non-negative root),
yet `Circle::ray_cast` returns `None` because it requires the
discriminant to be strictly positive. -/
theorem c4_counterexample :
    Circle.ray_cast ⟨⟨1/2, 1/2⟩, 1/2⟩ ⟨fun q => q, fun q => q, 0⟩ ⟨-1, 0⟩ ⟨1, 0⟩ = none ∧
    (1 * (3/2 : ℚ) ^ 2 + (-3) * (3/2) + 9/4 = 0) ∧ (0 : ℚ) ≤ 3/2 := by
  refine ⟨?_, by norm_num, by norm_num⟩
  norm_num [Circle.ray_cast]

/-- Helper for C4: with the quadratic coefficients `a`, `b`, `c` and the
discriminant `disc` named, `Circle::ray_cast` on a positive discriminant
reduces to the two-root case split of the source. -/
theorem circle_ray_cast_cases (circ : Circle) (fns : FloatFns) (pos dir : Vec2)
    (a b c disc : ℚ)
    (ha : a = dir.x * dir.x + dir.y * dir.y)
    (hb : b = 2 * (dir.x * (pos.x - circ.pos.x) + dir.y * (pos.y - circ.pos.y)))
    (hc : c = (pos.x - circ.pos.x) * (pos.x - circ.pos.x) +
        (pos.y - circ.pos.y) * (pos.y - circ.pos.y) - circ.radius * circ.radius)
    (hdisc : disc = b * b - 4 * a * c)
    (hdiscpos : 0 < disc) :
    circ.ray_cast fns pos dir =
      if (-b - fns.sqrtF disc) / (2 * a) ≥ 0 then
        some ⟨(-b - fns.sqrtF disc) / (2 * a),
          (if ((pos + ((-b - fns.sqrtF disc) / (2 * a)) • dir - circ.pos).divScalar
                circ.radius).y < 0 then
            2 * fns.piQ - fns.acosF ((pos + ((-b - fns.sqrtF disc) / (2 * a)) • dir -
              circ.pos).divScalar circ.radius).x
          else fns.acosF ((pos + ((-b - fns.sqrtF disc) / (2 * a)) • dir -
              circ.pos).divScalar circ.radius).x) / (2 * fns.piQ), 0⟩
      else if (-b + fns.sqrtF disc) / (2 * a) ≥ 0 then
        some ⟨(-b + fns.sqrtF disc) / (2 * a),
          (if ((pos + ((-b + fns.sqrtF disc) / (2 * a)) • dir - circ.pos).divScalar
                circ.radius).y < 0 then
            2 * fns.piQ - fns.acosF ((pos + ((-b + fns.sqrtF disc) / (2 * a)) • dir -
              circ.pos).divScalar circ.radius).x
          else fns.acosF ((pos + ((-b + fns.sqrtF disc) / (2 * a)) • dir -
              circ.pos).divScalar circ.radius).x) / (2 * fns.piQ), 0⟩
      else none := by
  simp only [Circle.ray_cast, Vec2.sub_x, Vec2.sub_y]
  rw [← ha, ← hb, ← hc, ← hdisc, if_pos hdiscpos]
  by_cases h1 : (-b - fns.sqrtF disc) / (2 * a) ≥ 0 <;>
    by_cases h2 : (-b + fns.sqrtF disc) / (2 * a) ≥ 0 <;>
    simp [h1, h2]

/-- C4 (amended with a strictly positive discriminant — forced by the
tangent counterexample; the source requires `in_sqrt > 0.0`, so a zero
discriminant returns `None` even when a non-negative real root exists):
`Circle::ray_cast` computes the quadratic
`a t² + b t + c = |pos + t·dir - center|² - r²` and, when the
discriminant is strictly positive, returns `Some` exactly when a
non-negative root exists, with `length` the smallest non-negative root
and `u = angle/(2π) ∈ [0, 1)`; and for a unit-direction ray through the
exact centre from distance `d > r`, the returned `length` is `d - r`.
`sqrt`/`acos`/`π` are abstract (`fns`), constrained by their defining
properties. -/
theorem c4_circle_quadratic :
    (∀ (circ : Circle) (fns : FloatFns) (pos dir : Vec2) (a b c disc : ℚ),
      a = dir.x * dir.x + dir.y * dir.y →
      b = 2 * (dir.x * (pos.x - circ.pos.x) + dir.y * (pos.y - circ.pos.y)) →
      c = (pos.x - circ.pos.x) * (pos.x - circ.pos.x) +
          (pos.y - circ.pos.y) * (pos.y - circ.pos.y) - circ.radius * circ.radius →
      disc = b * b - 4 * a * c →
      0 < a → 0 < circ.radius → 0 < disc →
      0 ≤ fns.sqrtF disc → fns.sqrtF disc * fns.sqrtF disc = disc →
      (∀ q, -1 ≤ q → q ≤ 1 → 0 ≤ fns.acosF q ∧ fns.acosF q ≤ fns.piQ) →
      (∀ q, -1 ≤ q → q < 1 → 0 < fns.acosF q) →
      0 < fns.piQ →
      ((∀ info, circ.ray_cast fns pos dir = some info →
          a * info.length ^ 2 + b * info.length + c = 0 ∧ 0 ≤ info.length ∧
          (∀ t, a * t ^ 2 + b * t + c = 0 → 0 ≤ t → info.length ≤ t) ∧
          0 ≤ info.x ∧ info.x < 1) ∧
        ((∃ t, a * t ^ 2 + b * t + c = 0 ∧ 0 ≤ t) →
          ∃ info, circ.ray_cast fns pos dir = some info))) ∧
    (∀ (circ : Circle) (fns : FloatFns) (pos dir : Vec2) (d : ℚ),
      dir.x * dir.x + dir.y * dir.y = 1 →
      0 < circ.radius → circ.radius < d →
      pos.x - circ.pos.x = -(d * dir.x) →
      pos.y - circ.pos.y = -(d * dir.y) →
      0 ≤ fns.sqrtF (4 * (circ.radius * circ.radius)) →
      fns.sqrtF (4 * (circ.radius * circ.radius)) *
        fns.sqrtF (4 * (circ.radius * circ.radius)) = 4 * (circ.radius * circ.radius) →
      ∃ u, circ.ray_cast fns pos dir = some ⟨d - circ.radius, u, 0⟩) := by
  constructor
  · intro circ fns pos dir a b c disc ha hb hc hdisc hapos hr hdiscpos hs1 hs2 hacos1 hacos2 hpi
    have ha0 : a ≠ 0 := ne_of_gt hapos
    have hr0 : circ.radius ≠ 0 := ne_of_gt hr
    have h2a : (2 * a) ≠ 0 := by positivity
    have hss : fns.sqrtF disc * fns.sqrtF disc = b * b - 4 * a * c := by
      rw [hs2, hdisc]
    have hcast := circle_ray_cast_cases circ fns pos dir a b c disc ha hb hc hdisc hdiscpos
    set s := fns.sqrtF disc with hsdef
    set l1 := (-b - s) / (2 * a) with hl1
    set l2 := (-b + s) / (2 * a) with hl2
    have h2ainv : (2 * a) * (2 * a)⁻¹ = 1 := mul_inv_cancel₀ h2a
    have hfact : ∀ t : ℚ, a * t ^ 2 + b * t + c = a * ((t - l1) * (t - l2)) := by
      intro t
      rw [hl1, hl2]
      have expand : a * ((t - (-b - s) / (2 * a)) * (t - (-b + s) / (2 * a))) =
          a * (t * t) + (b * ((2 * a) * (2 * a)⁻¹)) * t +
            ((b * b - s * s) * (2 * a)⁻¹ * (2 * a)⁻¹) * a := by ring
      rw [expand, h2ainv, hss]
      have collapse : (b * b - (b * b - 4 * a * c)) * (2 * a)⁻¹ * (2 * a)⁻¹ * a =
          c * ((2 * a) * (2 * a)⁻¹) * ((2 * a) * (2 * a)⁻¹) := by ring
      rw [collapse, h2ainv]
      ring
    have hl1l2 : l1 ≤ l2 := by
      rw [hl1, hl2]
      apply div_le_div_of_nonneg_right ?_ (by positivity)
      · linarith [hs1]
    have hroots : ∀ t : ℚ, a * t ^ 2 + b * t + c = 0 → t = l1 ∨ t = l2 := by
      intro t ht
      rw [hfact] at ht
      rcases mul_eq_zero.mp ht with h | h
      · exact absurd h ha0
      · rcases mul_eq_zero.mp h with h | h
        · exact Or.inl (by linarith [sub_eq_zero.mp h])
        · exact Or.inr (by linarith [sub_eq_zero.mp h])
    have huBound : ∀ l : ℚ, a * l ^ 2 + b * l + c = 0 →
        0 ≤ (if ((pos + l • dir - circ.pos).divScalar circ.radius).y < 0 then
              2 * fns.piQ - fns.acosF ((pos + l • dir - circ.pos).divScalar circ.radius).x
            else fns.acosF ((pos + l • dir - circ.pos).divScalar circ.radius).x) /
            (2 * fns.piQ) ∧
        (if ((pos + l • dir - circ.pos).divScalar circ.radius).y < 0 then
              2 * fns.piQ - fns.acosF ((pos + l • dir - circ.pos).divScalar circ.radius).x
            else fns.acosF ((pos + l • dir - circ.pos).divScalar circ.radius).x) /
            (2 * fns.piQ) < 1 := by
      have key : ∀ px py : ℚ, px ^ 2 + py ^ 2 = 1 →
          0 ≤ (if py < 0 then 2 * fns.piQ - fns.acosF px else fns.acosF px) /
            (2 * fns.piQ) ∧
          (if py < 0 then 2 * fns.piQ - fns.acosF px else fns.acosF px) /
            (2 * fns.piQ) < 1 := by
        intro px py hnorm
        have hpx1 : px ≤ 1 := by nlinarith [sq_nonneg py, sq_nonneg (px - 1)]
        have hpxm1 : -1 ≤ px := by nlinarith [sq_nonneg py, sq_nonneg (px + 1)]
        have h2pi : 0 < 2 * fns.piQ := by linarith
        obtain ⟨hac0, hacpi⟩ := hacos1 px hpxm1 hpx1
        by_cases hy : py < 0
        · rw [if_pos hy]
          have hpxlt : px < 1 := by nlinarith [sq_nonneg py]
          have hacpos : 0 < fns.acosF px := hacos2 px hpxm1 hpxlt
          constructor
          · apply div_nonneg ?_ (le_of_lt h2pi)
            linarith
          · rw [div_lt_one h2pi]
            linarith
        · rw [if_neg hy]
          constructor
          · exact div_nonneg hac0 (le_of_lt h2pi)
          · rw [div_lt_one h2pi]
            linarith
      intro l hl
      have hcirc : (pos.x + l * dir.x - circ.pos.x) ^ 2 +
          (pos.y + l * dir.y - circ.pos.y) ^ 2 = circ.radius ^ 2 := by
        linear_combination hl - l ^ 2 * ha - l * hb - hc
      have hpx : ((pos + l • dir - circ.pos).divScalar circ.radius).x =
          (pos.x + l * dir.x - circ.pos.x) / circ.radius := by simp
      have hpy : ((pos + l • dir - circ.pos).divScalar circ.radius).y =
          (pos.y + l * dir.y - circ.pos.y) / circ.radius := by simp
      have hnorm : ((pos + l • dir - circ.pos).divScalar circ.radius).x ^ 2 +
          ((pos + l • dir - circ.pos).divScalar circ.radius).y ^ 2 = 1 := by
        rw [hpx, hpy, div_pow, div_pow, ← add_div, hcirc]
        exact div_self (by positivity)
      exact key _ _ hnorm
    constructor
    · intro info heq
      rw [hcast] at heq
      by_cases hb1 : l1 ≥ 0
      · rw [if_pos hb1] at heq
        have h2 := Option.some.inj heq
        subst h2
        have hroot : a * l1 ^ 2 + b * l1 + c = 0 := by
          rw [hfact]; ring
        refine ⟨hroot, hb1, ?_, (huBound l1 hroot).1, (huBound l1 hroot).2⟩
        intro t ht ht0
        rcases hroots t ht with rfl | rfl
        · exact le_refl _
        · exact hl1l2
      · rw [if_neg hb1] at heq
        by_cases hb2 : l2 ≥ 0
        · rw [if_pos hb2] at heq
          have h2 := Option.some.inj heq
          subst h2
          have hroot : a * l2 ^ 2 + b * l2 + c = 0 := by
            rw [hfact]; ring
          refine ⟨hroot, hb2, ?_, (huBound l2 hroot).1, (huBound l2 hroot).2⟩
          intro t ht ht0
          rcases hroots t ht with rfl | rfl
          · exact absurd ht0 (by push_neg at hb1 ⊢; exact hb1)
          · exact le_refl _
        · rw [if_neg hb2] at heq
          exact absurd heq (by simp)
    · rintro ⟨t, ht, ht0⟩
      rw [hcast]
      by_cases hb1 : l1 ≥ 0
      · rw [if_pos hb1]; exact ⟨_, rfl⟩
      · rw [if_neg hb1]
        have hb2 : l2 ≥ 0 := by
          rcases hroots t ht with rfl | rfl
          · exact absurd ht0 hb1
          · exact ht0
        rw [if_pos hb2]; exact ⟨_, rfl⟩
  · intro circ fns pos dir d hdir hr hd hkx hky hs1 hs2
    have hr0 : circ.radius ≠ 0 := ne_of_gt hr
    have hbval : -(2 * d) =
        2 * (dir.x * (pos.x - circ.pos.x) + dir.y * (pos.y - circ.pos.y)) := by
      rw [hkx, hky]
      linear_combination (2 * d) * hdir
    have hcval : d * d - circ.radius * circ.radius =
        (pos.x - circ.pos.x) * (pos.x - circ.pos.x) +
          (pos.y - circ.pos.y) * (pos.y - circ.pos.y) -
          circ.radius * circ.radius := by
      rw [hkx, hky]
      linear_combination (-(d * d)) * hdir
    have hsval : fns.sqrtF (4 * (circ.radius * circ.radius)) = 2 * circ.radius := by
      have hs2' : fns.sqrtF (4 * (circ.radius * circ.radius)) *
          fns.sqrtF (4 * (circ.radius * circ.radius)) =
          (2 * circ.radius) * (2 * circ.radius) := by rw [hs2]; ring
      rcases mul_self_eq_mul_self_iff.mp hs2' with h | h
      · exact h
      · exfalso
        rw [h] at hs1
        linarith
    have hcast := circle_ray_cast_cases circ fns pos dir 1 (-(2 * d))
      (d * d - circ.radius * circ.radius) (4 * (circ.radius * circ.radius))
      hdir.symm hbval hcval (by ring) (by positivity)
    rw [hcast, hsval]
    have hdr : (-(-(2 * d)) - 2 * circ.radius) / (2 * 1) = d - circ.radius := by ring
    rw [hdr, if_pos (by linarith : d - circ.radius ≥ 0)]
    exact ⟨_, rfl⟩

/-- C4 witness: the through-centre conjunct at a concrete circle (radius
1, centre `(5, 0)`, ray origin `(0, 0)`, unit direction `(1, 0)`,
distance `d = 5`), with the square root abstracted as the identity-free
concrete function returning 2 on the discriminant 4. -/
theorem c4_circle_quadratic_witness :
    ∃ u, Circle.ray_cast ⟨⟨5, 0⟩, 1⟩ ⟨fun _ => 2, fun q => q, 4⟩ ⟨0, 0⟩ ⟨1, 0⟩ =
      some ⟨5 - 1, u, 0⟩ :=
  c4_circle_quadratic.2 ⟨⟨5, 0⟩, 1⟩ ⟨fun _ => 2, fun q => q, 4⟩ ⟨0, 0⟩ ⟨1, 0⟩ 5
    (by norm_num) (by norm_num) (by norm_num) (by norm_num) (by norm_num)
    (by norm_num) (by norm_num)

/-- C6: the claim asserts that a zero direction component never causes
an invalid hit, but `Line::ray_cast`, for a ray with `dir.x = 0.0`
collinear with a vertical segment, computes denominator `0.0`, so
`div = ∞` and `t = u = ∞ · 0 = NaN`; all three rejection comparisons on
NaN are false, so the code returns `Some` with NaN `length` and NaN `u`
— an invalid hit (the spec's §7(c) requires division by a zero
component to be treated as "no intersection").  This theorem evaluates
the embedded IEEE model of the source at that failing input. -/
theorem c6_line_nan_hit :
    FLine.ray_cast ⟨⟨F.fin (1/2), F.fin 0⟩, ⟨F.fin (1/2), F.fin 1⟩⟩
        ⟨F.fin (1/2), F.fin (-1)⟩ ⟨F.fin 0, F.fin 1⟩ =
      some ⟨F.nan, F.nan, 0⟩ := by
  norm_num [FLine.ray_cast, FVec2.dot, FVec2.sub, F.sub, F.add, F.neg, F.mul, F.div,
    F.ltB, F.leB, F.gtB, F.geB]

/-! ### `F`-model evaluation lemmas for finite values -/

theorem F.sub_fin (a b : ℚ) : (F.fin a).sub (F.fin b) = F.fin (a - b) := by
  show F.fin (a + -b) = F.fin (a - b)
  rw [← sub_eq_add_neg]

theorem F.add_fin (a b : ℚ) : (F.fin a).add (F.fin b) = F.fin (a + b) := rfl

theorem F.mul_fin (a b : ℚ) : (F.fin a).mul (F.fin b) = F.fin (a * b) := rfl

theorem F.div_fin (a b : ℚ) (h : b ≠ 0) :
    (F.fin a).div (F.fin b) = F.fin (a / b) := by
  simp [F.div, h]

theorem F.div_fin_zero_pos (a : ℚ) (h : 0 < a) :
    (F.fin a).div (F.fin 0) = F.pinf := by
  simp [F.div, h]

theorem F.div_fin_zero_neg (a : ℚ) (h : a < 0) :
    (F.fin a).div (F.fin 0) = F.ninf := by
  simp [F.div, h, asymm h]

theorem F.div_fin_zero_zero : (F.fin 0).div (F.fin 0) = F.nan := by
  simp [F.div]

theorem F.mul_pinf_fin (a : ℚ) (h : 0 < a) : F.pinf.mul (F.fin a) = F.pinf := by
  simp [F.mul, h]

theorem F.mul_ninf_fin (a : ℚ) (h : 0 < a) : F.ninf.mul (F.fin a) = F.ninf := by
  simp [F.mul, h]

theorem F.add_pinf_fin (a : ℚ) : F.pinf.add (F.fin a) = F.pinf := rfl

theorem F.add_ninf_fin (a : ℚ) : F.ninf.add (F.fin a) = F.ninf := rfl

theorem F.mul_nan (a : F) : F.nan.mul a = F.nan := by cases a <;> rfl

theorem F.add_nan_left (a : F) : F.nan.add a = F.nan := by cases a <;> rfl

theorem F.leB_fin (a b : ℚ) : (F.fin a).leB (F.fin b) = decide (a ≤ b) := rfl

theorem F.ltB_fin (a b : ℚ) : (F.fin a).ltB (F.fin b) = decide (a < b) := rfl

theorem F.geB_fin (a b : ℚ) : (F.fin a).geB (F.fin b) = decide (b ≤ a) := rfl

theorem F.gtB_fin (a b : ℚ) : (F.fin a).gtB (F.fin b) = decide (b < a) := rfl

theorem F.leB_fin_pinf (a : ℚ) : (F.fin a).leB F.pinf = true := rfl

theorem F.leB_pinf_fin (a : ℚ) : F.pinf.leB (F.fin a) = false := rfl

theorem F.leB_fin_ninf (a : ℚ) : (F.fin a).leB F.ninf = false := rfl

theorem F.leB_ninf_fin (a : ℚ) : F.ninf.leB (F.fin a) = true := rfl

theorem F.leB_nan_left (a : F) : F.nan.leB a = false := by cases a <;> rfl

theorem F.leB_nan_right (a : F) : a.leB F.nan = false := by cases a <;> rfl

/-- C3: for every ray cast straight into the unit `Box` from outside
along a coordinate axis (the four axis directions, with the origin
outside the square on the approach side and the perpendicular
coordinate within the face), `ray_cast` (IEEE model, including the
divisions by the zero direction component) returns `Some` with the side
of the geometrically nearest face — 0 = -x-facing, 1 = +x-facing,
2 = -y-facing, 3 = +y-facing — and with `length` the analytic distance
from the origin to that face. -/
theorem c3_axis_rays_into_box :
    (∀ px py : ℚ, px < 0 → 0 ≤ py → py ≤ 1 →
      FBoxUnit.ray_cast ⟨F.fin px, F.fin py⟩ ⟨F.fin 1, F.fin 0⟩ =
        some ⟨F.fin (-px), F.fin py, 0⟩) ∧
    (∀ px py : ℚ, 1 < px → 0 ≤ py → py ≤ 1 →
      FBoxUnit.ray_cast ⟨F.fin px, F.fin py⟩ ⟨F.fin (-1), F.fin 0⟩ =
        some ⟨F.fin (px - 1), F.fin py, 1⟩) ∧
    (∀ px py : ℚ, 0 ≤ px → px ≤ 1 → py < 0 →
      FBoxUnit.ray_cast ⟨F.fin px, F.fin py⟩ ⟨F.fin 0, F.fin 1⟩ =
        some ⟨F.fin (-py), F.fin px, 2⟩) ∧
    (∀ px py : ℚ, 0 ≤ px → px ≤ 1 → 1 < py →
      FBoxUnit.ray_cast ⟨F.fin px, F.fin py⟩ ⟨F.fin 0, F.fin (-1)⟩ =
        some ⟨F.fin (py - 1), F.fin px, 3⟩) := by
  refine ⟨?_, ?_, ?_, ?_⟩
  · intro px py hx hy0 hy1
    simp only [FBoxUnit, FAxisAlignedBox.ray_cast, F.gtB_fin, decide_eq_true_eq]
    rw [if_pos (by norm_num : (0:ℚ) < 1)]
    simp only [F.sub_fin, F.mul_fin, F.add_fin]
    rw [F.div_fin _ _ (by norm_num : (1 : ℚ) ≠ 0)]
    simp only [F.sub_fin, F.mul_fin, F.add_fin]
    rw [if_pos (by
      simp only [F.geB_fin, F.leB_fin, Bool.and_eq_true, decide_eq_true_eq]
      refine ⟨⟨by linarith, by linarith⟩, ?_⟩
      have e : (0 - px) / 1 = -px := by ring
      rw [e]; linarith)]
    rw [F.div_fin _ _ (by norm_num : (1 : ℚ) - 0 ≠ 0)]
    simp only [Option.some.injEq, FShapeHitInfo.mk.injEq, F.fin.injEq]
    refine ⟨by ring, by ring, trivial⟩
  · intro px py hx hy0 hy1
    simp only [FBoxUnit, FAxisAlignedBox.ray_cast, F.gtB_fin, decide_eq_true_eq]
    rw [if_neg (by norm_num : ¬ (0:ℚ) < -1)]
    simp only [F.sub_fin]
    rw [F.div_fin _ _ (by norm_num : (-1 : ℚ) ≠ 0)]
    simp only [F.sub_fin, F.mul_fin, F.add_fin]
    rw [if_pos (by
      simp only [F.geB_fin, F.leB_fin, Bool.and_eq_true, decide_eq_true_eq]
      refine ⟨⟨by linarith, by linarith⟩, ?_⟩
      have e : (1 - px) / (-1) = px - 1 := by ring
      rw [e]; linarith)]
    rw [F.div_fin _ _ (by norm_num : (1 : ℚ) - 0 ≠ 0)]
    simp only [Option.some.injEq, FShapeHitInfo.mk.injEq, F.fin.injEq]
    refine ⟨by ring, by ring, trivial⟩
  · intro px py hx0 hx1 hy
    simp only [FBoxUnit, FAxisAlignedBox.ray_cast, F.gtB_fin, decide_eq_true_eq]
    rw [if_neg (by norm_num : ¬ (0:ℚ) < 0)]
    simp only [F.sub_fin]
    rcases eq_or_lt_of_le (by linarith : (0:ℚ) ≤ 1 - px) with h | h
    · rw [← h, F.div_fin_zero_zero]
      rw [if_neg (by simp [F.mul_nan, F.add_nan_left, F.leB_nan_right, F.geB])]
      rw [if_pos (by norm_num : (0:ℚ) < 1)]
      simp only [F.sub_fin]
      rw [F.div_fin _ _ (by norm_num : (1 : ℚ) ≠ 0)]
      simp only [F.sub_fin, F.mul_fin, F.add_fin]
      rw [if_pos (by
        simp only [F.geB_fin, F.leB_fin, Bool.and_eq_true, decide_eq_true_eq]
        refine ⟨⟨by linarith, by linarith⟩, ?_⟩
        have e : (0 - py) / 1 = -py := by ring
        rw [e]; linarith)]
      rw [F.div_fin _ _ (by norm_num : (1 : ℚ) - 0 ≠ 0)]
      simp only [Option.some.injEq, FShapeHitInfo.mk.injEq, F.fin.injEq]
      refine ⟨by ring, by ring, trivial⟩
    · rw [F.div_fin_zero_pos _ h]
      rw [if_neg (by
        rw [F.mul_pinf_fin _ (by norm_num : (0:ℚ) < 1), F.add_pinf_fin]
        simp [F.geB, F.leB])]
      rw [if_pos (by norm_num : (0:ℚ) < 1)]
      simp only [F.sub_fin]
      rw [F.div_fin _ _ (by norm_num : (1 : ℚ) ≠ 0)]
      simp only [F.sub_fin, F.mul_fin, F.add_fin]
      rw [if_pos (by
        simp only [F.geB_fin, F.leB_fin, Bool.and_eq_true, decide_eq_true_eq]
        refine ⟨⟨by linarith, by linarith⟩, ?_⟩
        have e : (0 - py) / 1 = -py := by ring
        rw [e]; linarith)]
      rw [F.div_fin _ _ (by norm_num : (1 : ℚ) - 0 ≠ 0)]
      simp only [Option.some.injEq, FShapeHitInfo.mk.injEq, F.fin.injEq]
      refine ⟨by ring, by ring, trivial⟩
  · intro px py hx0 hx1 hy
    simp only [FBoxUnit, FAxisAlignedBox.ray_cast, F.gtB_fin, decide_eq_true_eq]
    rw [if_neg (by norm_num : ¬ (0:ℚ) < 0)]
    simp only [F.sub_fin]
    rcases eq_or_lt_of_le (by linarith : (0:ℚ) ≤ 1 - px) with h | h
    · rw [← h, F.div_fin_zero_zero]
      rw [if_neg (by simp [F.mul_nan, F.add_nan_left, F.leB_nan_right, F.geB])]
      rw [if_neg (by norm_num : ¬ (0:ℚ) < -1)]
      simp only [F.sub_fin]
      rw [F.div_fin _ _ (by norm_num : (-1 : ℚ) ≠ 0)]
      simp only [F.sub_fin, F.mul_fin, F.add_fin]
      rw [if_pos (by
        simp only [F.geB_fin, F.leB_fin, Bool.and_eq_true, decide_eq_true_eq]
        refine ⟨⟨by linarith, by linarith⟩, ?_⟩
        have e : (1 - py) / (-1) = py - 1 := by ring
        rw [e]; linarith)]
      rw [F.div_fin _ _ (by norm_num : (1 : ℚ) - 0 ≠ 0)]
      simp only [Option.some.injEq, FShapeHitInfo.mk.injEq, F.fin.injEq]
      refine ⟨by ring, by ring, trivial⟩
    · rw [F.div_fin_zero_pos _ h]
      rw [if_neg (by norm_num [F.mul, F.add, F.leB, F.geB])]
      rw [if_neg (by norm_num : ¬ (0:ℚ) < -1)]
      simp only [F.sub_fin]
      rw [F.div_fin _ _ (by norm_num : (-1 : ℚ) ≠ 0)]
      simp only [F.sub_fin, F.mul_fin, F.add_fin]
      rw [if_pos (by
        simp only [F.geB_fin, F.leB_fin, Bool.and_eq_true, decide_eq_true_eq]
        refine ⟨⟨by linarith, by linarith⟩, ?_⟩
        have e : (1 - py) / (-1) = py - 1 := by ring
        rw [e]; linarith)]
      rw [F.div_fin _ _ (by norm_num : (1 : ℚ) - 0 ≠ 0)]
      simp only [Option.some.injEq, FShapeHitInfo.mk.injEq, F.fin.injEq]
      refine ⟨by ring, by ring, trivial⟩

/-- C3 witness: each of the four axis-direction cases evaluated at a
concrete outside origin. -/
theorem c3_axis_rays_into_box_witness :
    FBoxUnit.ray_cast ⟨F.fin (-2), F.fin (1/2)⟩ ⟨F.fin 1, F.fin 0⟩ =
      some ⟨F.fin (-(-2)), F.fin (1/2), 0⟩ ∧
    FBoxUnit.ray_cast ⟨F.fin 3, F.fin (1/2)⟩ ⟨F.fin (-1), F.fin 0⟩ =
      some ⟨F.fin (3 - 1), F.fin (1/2), 1⟩ ∧
    FBoxUnit.ray_cast ⟨F.fin (1/2), F.fin (-2)⟩ ⟨F.fin 0, F.fin 1⟩ =
      some ⟨F.fin (-(-2)), F.fin (1/2), 2⟩ ∧
    FBoxUnit.ray_cast ⟨F.fin (1/2), F.fin 3⟩ ⟨F.fin 0, F.fin (-1)⟩ =
      some ⟨F.fin (3 - 1), F.fin (1/2), 3⟩ :=
  ⟨c3_axis_rays_into_box.1 (-2) (1/2) (by norm_num) (by norm_num) (by norm_num),
   c3_axis_rays_into_box.2.1 3 (1/2) (by norm_num) (by norm_num) (by norm_num),
   c3_axis_rays_into_box.2.2.1 (1/2) (-2) (by norm_num) (by norm_num) (by norm_num),
   c3_axis_rays_into_box.2.2.2 (1/2) 3 (by norm_num) (by norm_num) (by norm_num)⟩

/-! ### Map traversal lemmas (C1, C2) -/

/-- Helper: a successful `get_tile` implies the queried cell is inside
the grid. -/
theorem Map.get_tile_some_bounds (m : Map) (x y : ℤ) (t : Tile)
    (h : m.get_tile x y = some t) :
    0 ≤ x ∧ x < (m.width : ℤ) ∧ 0 ≤ y ∧ y < (m.height : ℤ) := by
  unfold Map.get_tile at h
  by_cases hx : x < 0 ∨ x ≥ (m.width : ℤ)
  · rw [if_pos hx] at h
    exact absurd h (by simp)
  · rw [if_neg hx] at h
    by_cases hy : y < 0 ∨ y ≥ (m.height : ℤ)
    · rw [if_pos hy] at h
      exact absurd h (by simp)
    · push_neg at hx hy
      exact ⟨hx.1, hx.2, hy.1, hy.2⟩

/-- Helper: every shape intersection the source reports lies no earlier
than the `-0.001` tolerance along the ray, whatever the abstracted
`sqrt`/`acos`/`π` are. -/
theorem Shape.ray_cast_length_ge (sh : Shape) (fns : FloatFns) (pos dir : Vec2)
    (si : ShapeHitInfo) (h : sh.ray_cast fns pos dir = some si) :
    -(1/1000) ≤ si.length := by
  cases sh with
  | Void => exact absurd h (by simp [Shape.ray_cast])
  | Box =>
      simp only [Shape.ray_cast, AxisAlignedBox.ray_cast] at h
      split_ifs at h <;>
        (obtain rfl := (Option.some.inj h).symm
         obtain ⟨-, -, h3⟩ := ‹_ ∧ _ ∧ _ + 1/1000 ≥ (0:ℚ)›
         simp only
         linarith)
  | AxisAlignedBox bx =>
      simp only [Shape.ray_cast, AxisAlignedBox.ray_cast] at h
      split_ifs at h <;>
        (obtain rfl := (Option.some.inj h).symm
         obtain ⟨-, -, h3⟩ := ‹_ ∧ _ ∧ _ + 1/1000 ≥ (0:ℚ)›
         simp only
         linarith)
  | Circle c =>
      simp only [Shape.ray_cast, Circle.ray_cast] at h
      split_ifs at h <;>
        (obtain rfl := (Option.some.inj h).symm
         have h3 := ‹_ ≥ (0:ℚ)›
         simp only
         linarith)
  | Line ln =>
      simp only [Shape.ray_cast, Line.ray_cast] at h
      split_ifs at h with h1 <;>
        (obtain rfl := (Option.some.inj h).symm
         push_neg at h1
         simp only
         linarith [h1.1])


/-- Helper for C2: the DDA loop returns (rather than running out of
fuel) whenever the fuel is at least the number of grid steps left
before the stepped cell leaves the map (`stepsToExit`), or at least 1
when the current cell is already outside. -/
theorem rayLoop_done {σ : Type} (m : Map) (fns : FloatFns) (pos dir delta_dist : Vec2)
    (stepx stepy : ℤ) (cb : Callback σ)
    (hsx : stepx = 1 ∨ stepx = -1) (hsy : stepy = 1 ∨ stepy = -1) :
    ∀ (fuel : ℕ) (mp : ℤ × ℤ) (sd lp : Vec2) (ld : ℚ) (s : σ),
      ((0 ≤ mp.1 ∧ mp.1 < (m.width : ℤ) ∧ 0 ≤ mp.2 ∧ mp.2 < (m.height : ℤ)) ∧
        (stepsToExit m.width m.height stepx stepy mp).toNat ≤ fuel) ∨
      (¬ (0 ≤ mp.1 ∧ mp.1 < (m.width : ℤ) ∧ 0 ≤ mp.2 ∧ mp.2 < (m.height : ℤ)) ∧ 1 ≤ fuel) →
      (m.rayLoop fns pos dir delta_dist stepx stepy cb fuel mp sd lp ld s).2.2 = true := by
  intro fuel
  induction fuel with
  | zero =>
      intro mp sd lp ld s hcond
      exfalso
      rcases hcond with ⟨hin, hfuel⟩ | ⟨-, hfuel⟩
      · have h1 : (1:ℤ) ≤ (if stepx = 1 then (m.width : ℤ) - mp.1 else mp.1 + 1) := by
          rcases hsx with rfl | rfl
          · simp only [if_pos rfl]; omega
          · rw [if_neg (by norm_num)]; omega
        have h2 : (1:ℤ) ≤ (if stepy = 1 then (m.height : ℤ) - mp.2 else mp.2 + 1) := by
          rcases hsy with rfl | rfl
          · simp only [if_pos rfl]; omega
          · rw [if_neg (by norm_num)]; omega
        have : (2:ℤ) ≤ stepsToExit m.width m.height stepx stepy mp := by
          unfold stepsToExit; omega
        omega
      · omega
  | succ fuel ih =>
      intro mp sd lp ld s hcond
      rcases hmt : m.get_tile mp.1 mp.2 with _ | tile
      · simp only [Map.rayLoop, hmt]
      · have hin := Map.get_tile_some_bounds m mp.1 mp.2 tile hmt
        have hfuel : (stepsToExit m.width m.height stepx stepy mp).toNat ≤ fuel + 1 := by
          rcases hcond with ⟨-, hf⟩ | ⟨hnin, -⟩
          · exact hf
          · exact absurd hin hnin
        have hmono : ∀ (mp' : ℤ × ℤ), (mp' = (mp.1 + stepx, mp.2) ∨ mp' = (mp.1, mp.2 + stepy)) →
            ((0 ≤ mp'.1 ∧ mp'.1 < (m.width : ℤ) ∧ 0 ≤ mp'.2 ∧ mp'.2 < (m.height : ℤ)) ∧
              (stepsToExit m.width m.height stepx stepy mp').toNat ≤ fuel) ∨
            (¬ (0 ≤ mp'.1 ∧ mp'.1 < (m.width : ℤ) ∧ 0 ≤ mp'.2 ∧ mp'.2 < (m.height : ℤ)) ∧
              1 ≤ fuel) := by
          intro mp' hmp'
          have hdec : stepsToExit m.width m.height stepx stepy mp' =
              stepsToExit m.width m.height stepx stepy mp - 1 := by
            rcases hmp' with rfl | rfl <;>
              rcases hsx with rfl | rfl <;> rcases hsy with rfl | rfl <;>
              norm_num [stepsToExit] <;> ring
          have hge2 : (2:ℤ) ≤ stepsToExit m.width m.height stepx stepy mp := by
            have h1 : (1:ℤ) ≤ (if stepx = 1 then (m.width : ℤ) - mp.1 else mp.1 + 1) := by
              rcases hsx with rfl | rfl
              · simp only [if_pos rfl]; omega
              · rw [if_neg (by norm_num)]; omega
            have h2 : (1:ℤ) ≤ (if stepy = 1 then (m.height : ℤ) - mp.2 else mp.2 + 1) := by
              rcases hsy with rfl | rfl
              · simp only [if_pos rfl]; omega
              · rw [if_neg (by norm_num)]; omega
            unfold stepsToExit; omega
          by_cases hin' : 0 ≤ mp'.1 ∧ mp'.1 < (m.width : ℤ) ∧ 0 ≤ mp'.2 ∧ mp'.2 < (m.height : ℤ)
          · left
            refine ⟨hin', ?_⟩
            omega
          · right
            refine ⟨hin', ?_⟩
            omega
        simp only [Map.rayLoop, hmt]
        by_cases hlt : sd.x < sd.y
        · simp only [if_pos hlt, reduceIte]
          split
          · rfl
          · split
            · split
              · split
                · rfl
                · exact ih _ _ _ _ _ (hmono _ (Or.inl rfl))
              · exact ih _ _ _ _ _ (hmono _ (Or.inl rfl))
            · exact ih _ _ _ _ _ (hmono _ (Or.inl rfl))
        · simp only [if_neg hlt, reduceIte]
          rw [if_neg (by norm_num : ¬ (1:ℕ) = 0)]
          split
          · rfl
          · split
            · split
              · split
                · rfl
                · exact ih _ _ _ _ _ (hmono _ (Or.inr rfl))
              · exact ih _ _ _ _ _ (hmono _ (Or.inr rfl))
            · exact ih _ _ _ _ _ (hmono _ (Or.inr rfl))

/-- Helper for C2: the hit sequence the DDA loop emits never continues
past a callback that answered `true`. -/
theorem rayLoop_stops {σ : Type} (m : Map) (fns : FloatFns) (pos dir delta_dist : Vec2)
    (stepx stepy : ℤ) (cb : Callback σ) :
    ∀ (fuel : ℕ) (mp : ℤ × ℤ) (sd lp : Vec2) (ld : ℚ) (s : σ),
      stopsAfterTrue cb s
        (m.rayLoop fns pos dir delta_dist stepx stepy cb fuel mp sd lp ld s).1 = true := by
  intro fuel
  induction fuel with
  | zero => intro mp sd lp ld s; rfl
  | succ fuel ih =>
      intro mp sd lp ld s
      rcases hmt : m.get_tile mp.1 mp.2 with _ | tile
      · simp [Map.rayLoop, hmt, stopsAfterTrue]
      · simp only [Map.rayLoop, hmt]
        by_cases hlt : sd.x < sd.y
        · simp only [if_pos hlt, reduceIte]
          split
          · rename_i hcb
            simp [stopsAfterTrue, hcb]
          · rename_i hcb
            rcases hmt2 : m.get_tile (mp.1 + stepx) mp.2 with _ | tile2
            · simp only [hmt2]
              simp [stopsAfterTrue, hcb]
              exact ih _ _ _ _ _
            · simp only [hmt2]
              rcases hsi : tile2.shape.ray_cast fns
                  (pos + sd.x • dir - vecOfInt (mp.1 + stepx, mp.2)) dir with _ | si
              · simp only [hsi]
                simp [stopsAfterTrue, hcb]
                exact ih _ _ _ _ _
              · simp only [hsi]
                split
                · rename_i hcb2
                  simp [stopsAfterTrue, hcb, hcb2]
                · rename_i hcb2
                  simp at hcb2
                  simp [stopsAfterTrue, hcb, hcb2]
                  exact ih _ _ _ _ _
        · simp only [if_neg hlt, reduceIte]
          rw [if_neg (by norm_num : ¬ (1:ℕ) = 0)]
          split
          · rename_i hcb
            simp [stopsAfterTrue, hcb]
          · rename_i hcb
            rcases hmt2 : m.get_tile mp.1 (mp.2 + stepy) with _ | tile2
            · simp only [hmt2]
              simp [stopsAfterTrue, hcb]
              exact ih _ _ _ _ _
            · simp only [hmt2]
              rcases hsi : tile2.shape.ray_cast fns
                  (pos + sd.y • dir - vecOfInt (mp.1, mp.2 + stepy)) dir with _ | si
              · simp only [hsi]
                simp [stopsAfterTrue, hcb]
                exact ih _ _ _ _ _
              · simp only [hsi]
                split
                · rename_i hcb2
                  simp [stopsAfterTrue, hcb, hcb2]
                · rename_i hcb2
                  simp at hcb2
                  simp [stopsAfterTrue, hcb, hcb2]
                  exact ih _ _ _ _ _

/-- Helper for C1: the hit sequence the DDA loop emits from entry
distance `d` satisfies `OrderedFrom d` whenever the per-axis distance
increments are non-negative and both accumulated side distances are at
least `d`. -/
theorem rayLoop_ordered {σ : Type} (m : Map) (fns : FloatFns) (pos dir delta_dist : Vec2)
    (stepx stepy : ℤ) (cb : Callback σ)
    (hdx : 0 ≤ delta_dist.x) (hdy : 0 ≤ delta_dist.y) :
    ∀ (fuel : ℕ) (mp : ℤ × ℤ) (sd lp : Vec2) (d : ℚ) (s : σ),
      d ≤ sd.x → d ≤ sd.y →
      OrderedFrom d (m.rayLoop fns pos dir delta_dist stepx stepy cb fuel mp sd lp d s).1 := by
  intro fuel
  induction fuel with
  | zero => intro mp sd lp d s h1 h2; simp [Map.rayLoop, OrderedFrom]
  | succ fuel ih =>
      intro mp sd lp d s h1 h2
      rcases hmt : m.get_tile mp.1 mp.2 with _ | tile
      · simp [Map.rayLoop, hmt, OrderedFrom]
      · simp only [Map.rayLoop, hmt]
        by_cases hlt : sd.x < sd.y
        · simp only [if_pos hlt, reduceIte]
          split
          · exact ⟨rfl, h1, trivial⟩
          · rcases hmt2 : m.get_tile (mp.1 + stepx) mp.2 with _ | tile2
            · simp only [hmt2]
              exact ⟨rfl, h1, ih _ _ _ _ _
                (show sd.x ≤ sd.x + delta_dist.x by linarith)
                (show sd.x ≤ sd.y from le_of_lt hlt)⟩
            · simp only [hmt2]
              rcases hsi : tile2.shape.ray_cast fns
                  (pos + sd.x • dir - vecOfInt (mp.1 + stepx, mp.2)) dir with _ | si
              · simp only [hsi]
                exact ⟨rfl, h1, ih _ _ _ _ _
                  (show sd.x ≤ sd.x + delta_dist.x by linarith)
                  (show sd.x ≤ sd.y from le_of_lt hlt)⟩
              · simp only [hsi]
                have hlen := Shape.ray_cast_length_ge _ _ _ _ _ hsi
                split
                · exact ⟨rfl, h1,
                    show sd.x - 1/1000 ≤ si.length + (sd.x + delta_dist.x - delta_dist.x)
                      by linarith, trivial⟩
                · exact ⟨rfl, h1,
                    show sd.x - 1/1000 ≤ si.length + (sd.x + delta_dist.x - delta_dist.x)
                      by linarith,
                    ih _ _ _ _ _
                      (show sd.x ≤ sd.x + delta_dist.x by linarith)
                      (show sd.x ≤ sd.y from le_of_lt hlt)⟩
        · simp only [if_neg hlt, reduceIte]
          rw [if_neg (by norm_num : ¬ (1:ℕ) = 0)]
          have hyx : sd.y ≤ sd.x := not_lt.mp hlt
          split
          · exact ⟨rfl, h2, trivial⟩
          · rcases hmt2 : m.get_tile mp.1 (mp.2 + stepy) with _ | tile2
            · simp only [hmt2]
              exact ⟨rfl, h2, ih _ _ _ _ _
                (show sd.y ≤ sd.x from hyx)
                (show sd.y ≤ sd.y + delta_dist.y by linarith)⟩
            · simp only [hmt2]
              rcases hsi : tile2.shape.ray_cast fns
                  (pos + sd.y • dir - vecOfInt (mp.1, mp.2 + stepy)) dir with _ | si
              · simp only [hsi]
                exact ⟨rfl, h2, ih _ _ _ _ _
                  (show sd.y ≤ sd.x from hyx)
                  (show sd.y ≤ sd.y + delta_dist.y by linarith)⟩
              · simp only [hsi]
                have hlen := Shape.ray_cast_length_ge _ _ _ _ _ hsi
                split
                · exact ⟨rfl, h2,
                    show sd.y - 1/1000 ≤ si.length + (sd.y + delta_dist.y - delta_dist.y)
                      by linarith, trivial⟩
                · exact ⟨rfl, h2,
                    show sd.y - 1/1000 ≤ si.length + (sd.y + delta_dist.y - delta_dist.y)
                      by linarith,
                    ih _ _ _ _ _
                      (show sd.y ≤ sd.x from hyx)
                      (show sd.y ≤ sd.y + delta_dist.y by linarith)⟩

/-- C2: `Map::ray_cast` terminates for every origin, direction and
callback within `width + height` grid steps — the returned flag is
`true` (the source's loop returned, by the callback's stop signal or by
the stepped cell leaving the map, rather than running forever) already
at fuel `width + height`, so a traversal of a 10×10 grid performs at
most 20 grid steps — and the emitted hit sequence stops as soon as the
callback returns `true` (no hit is ever emitted after a `true`
answer). -/
theorem c2_ray_cast_terminates {σ : Type} (m : Map) (fns : FloatFns) (pos dir : Vec2)
    (cb : Callback σ) (s : σ) (fuel : ℕ) (hfuel : m.width + m.height ≤ fuel) :
    (m.ray_cast fns pos dir cb s fuel).2.2 = true ∧
    stopsAfterTrue cb s (m.ray_cast fns pos dir cb s fuel).1 = true := by
  have hsx : (if dir.x < 0 then (-1:ℤ) else 1) = 1 ∨ (if dir.x < 0 then (-1:ℤ) else 1) = -1 := by
    split_ifs
    · exact Or.inr rfl
    · exact Or.inl rfl
  have hsy : (if dir.y < 0 then (-1:ℤ) else 1) = 1 ∨ (if dir.y < 0 then (-1:ℤ) else 1) = -1 := by
    split_ifs
    · exact Or.inr rfl
    · exact Or.inl rfl
  simp only [Map.ray_cast]
  rcases hmt0 : m.get_tile (truncQ pos.x) (truncQ pos.y) with _ | tile
  · simp only [hmt0]
    exact ⟨trivial, rfl⟩
  · simp only [hmt0]
    have hin := Map.get_tile_some_bounds m _ _ _ hmt0
    have hb1 : (if dir.x < 0 then (-1:ℤ) else 1) = 1 ∨ (if dir.x < 0 then (-1:ℤ) else 1) = -1 := hsx
    have hboundx : (if (if dir.x < 0 then (-1:ℤ) else 1) = 1 then (m.width : ℤ) - truncQ pos.x
        else truncQ pos.x + 1) ≤ (m.width : ℤ) := by
      rcases hsx with h | h <;> rw [h] <;> simp <;> omega
    have hboundy : (if (if dir.y < 0 then (-1:ℤ) else 1) = 1 then (m.height : ℤ) - truncQ pos.y
        else truncQ pos.y + 1) ≤ (m.height : ℤ) := by
      rcases hsy with h | h <;> rw [h] <;> simp <;> omega
    have hcond : ((0 ≤ (truncQ pos.x, truncQ pos.y).1 ∧
          (truncQ pos.x, truncQ pos.y).1 < (m.width : ℤ) ∧
          0 ≤ (truncQ pos.x, truncQ pos.y).2 ∧
          (truncQ pos.x, truncQ pos.y).2 < (m.height : ℤ)) ∧
        (stepsToExit m.width m.height (if dir.x < 0 then (-1:ℤ) else 1)
          (if dir.y < 0 then (-1:ℤ) else 1) (truncQ pos.x, truncQ pos.y)).toNat ≤ fuel) ∨
        (¬ (0 ≤ (truncQ pos.x, truncQ pos.y).1 ∧
          (truncQ pos.x, truncQ pos.y).1 < (m.width : ℤ) ∧
          0 ≤ (truncQ pos.x, truncQ pos.y).2 ∧
          (truncQ pos.x, truncQ pos.y).2 < (m.height : ℤ)) ∧ 1 ≤ fuel) := by
      left
      refine ⟨hin, ?_⟩
      have : stepsToExit m.width m.height (if dir.x < 0 then (-1:ℤ) else 1)
          (if dir.y < 0 then (-1:ℤ) else 1) (truncQ pos.x, truncQ pos.y) ≤
          (m.width : ℤ) + (m.height : ℤ) := by
        unfold stepsToExit
        omega
      omega
    rcases hsi0 : tile.shape.ray_cast fns (pos - vecOfInt (truncQ pos.x, truncQ pos.y)) dir
        with _ | si
    all_goals simp only [hsi0]
    · exact ⟨rayLoop_done m fns pos dir _ _ _ cb hsx hsy fuel _ _ _ _ _ hcond,
        rayLoop_stops m fns pos dir _ _ _ cb fuel _ _ _ _ _⟩
    · split
      · rename_i hcb
        refine ⟨rfl, ?_⟩
        simp [stopsAfterTrue, hcb]
      · rename_i hcb
        constructor
        · exact rayLoop_done m fns pos dir _ _ _ cb hsx hsy fuel _ _ _ _ _ hcond
        · simp only [stopsAfterTrue]
          simp [hcb]
          exact rayLoop_stops m fns pos dir _ _ _ cb fuel _ _ _ _ _

/-- C2 witness: a 10×10 map traversed from its centre completes within
fuel 20 = 10 + 10. -/
theorem c2_ray_cast_terminates_witness :
    ((Map.mk 10 10
        (List.replicate 100 (Tile.mk Shape.Void (fun _ => Color.Test) Color.Test 0 Color.Test 1))
        1).ray_cast ⟨fun q => q, fun q => q, 0⟩ ⟨11/2, 11/2⟩ ⟨1, 1/100⟩
        (fun (_ : Unit) (_ : HitR) => ((), false)) () 20).2.2 = true ∧
    stopsAfterTrue (fun (_ : Unit) (_ : HitR) => ((), false)) ()
      ((Map.mk 10 10
        (List.replicate 100 (Tile.mk Shape.Void (fun _ => Color.Test) Color.Test 0 Color.Test 1))
        1).ray_cast ⟨fun q => q, fun q => q, 0⟩ ⟨11/2, 11/2⟩ ⟨1, 1/100⟩
        (fun (_ : Unit) (_ : HitR) => ((), false)) () 20).1 = true :=
  c2_ray_cast_terminates
    (Map.mk 10 10
      (List.replicate 100 (Tile.mk Shape.Void (fun _ => Color.Test) Color.Test 0 Color.Test 1)) 1)
    ⟨fun q => q, fun q => q, 0⟩ ⟨11/2, 11/2⟩ ⟨1, 1/100⟩
    (fun (_ : Unit) (_ : HitR) => ((), false)) () 20 (by norm_num)

set_option maxHeartbeats 2000000 in
/-- C1 counterexample: on a 2×1 map whose origin cell contains an
axis-aligned box occupying `x ∈ [0.9, 1]`, the ray from `(0.5, 0.5)`
with direction `(1, 0.01)` makes `Map::ray_cast` emit the origin cell's
`WallHit` at distance `0.4` first and only then the origin cell's
`FloorHit`, whose range starts at distance `0` — so the emitted hit
sequence is not strictly ordered by increasing distance. -/
theorem c1_strict_order_counterexample :
    strictlyOrderedB
      ((Map.mk 2 1
          [Tile.mk (Shape.AxisAlignedBox (AxisAlignedBox.mk ⟨9/10, 0⟩ ⟨1, 1⟩))
             (fun _ => Color.Test) Color.Test 0 Color.Test 1,
           Tile.mk Shape.Void (fun _ => Color.Test) Color.Test 0 Color.Test 1] 1).ray_cast
        ⟨fun q => q, fun q => q, 0⟩ ⟨1/2, 1/2⟩ ⟨1, 1/100⟩
        (fun (_ : Unit) (_ : HitR) => ((), false)) () 3).1 = false := by
  norm_num [Map.ray_cast, Map.rayLoop, Map.get_tile, Shape.ray_cast,
    AxisAlignedBox.ray_cast, truncQ, vecOfInt, strictlyOrderedB, hitLo, hitHi,
    List.get?, abs_of_pos]

/-- C1 (amended — the counterexample forces dropping strictness and the
claim that every hit starts after all previous ones; what holds, for
origins with non-negative coordinates, is the following monotone
structure): the `FloorHit` events form a contiguous chain of
non-decreasing distance ranges starting at 0 (each `FloorHit` starts
exactly at the previous one's `dist2`, with `dist1 ≤ dist2`), and every
`WallHit` lies no more than the `0.001` shape-test tolerance before the
entry distance of the cell in which it was found. -/
theorem c1_hits_ordered_from_origin {σ : Type} (m : Map) (fns : FloatFns) (pos dir : Vec2)
    (cb : Callback σ) (s : σ) (fuel : ℕ) (hpx : 0 ≤ pos.x) (hpy : 0 ≤ pos.y) :
    OrderedFrom 0 (m.ray_cast fns pos dir cb s fuel).1 := by
  have hdx : 0 ≤ 1 / |dir.x| := one_div_nonneg.mpr (abs_nonneg _)
  have hdy : 0 ≤ 1 / |dir.y| := one_div_nonneg.mpr (abs_nonneg _)
  have htrx1 : ((truncQ pos.x : ℤ) : ℚ) ≤ pos.x := by
    unfold truncQ
    rw [if_neg (not_lt.mpr hpx)]
    exact_mod_cast Int.floor_le pos.x
  have htrx2 : pos.x ≤ ((truncQ pos.x : ℤ) : ℚ) + 1 := by
    unfold truncQ
    rw [if_neg (not_lt.mpr hpx)]
    exact_mod_cast le_of_lt (Int.lt_floor_add_one pos.x)
  have htry1 : ((truncQ pos.y : ℤ) : ℚ) ≤ pos.y := by
    unfold truncQ
    rw [if_neg (not_lt.mpr hpy)]
    exact_mod_cast Int.floor_le pos.y
  have htry2 : pos.y ≤ ((truncQ pos.y : ℤ) : ℚ) + 1 := by
    unfold truncQ
    rw [if_neg (not_lt.mpr hpy)]
    exact_mod_cast le_of_lt (Int.lt_floor_add_one pos.y)
  have hsdx : 0 ≤ (if dir.x < 0 then (pos.x - ((truncQ pos.x : ℤ) : ℚ)) * (1 / |dir.x|)
      else (((truncQ pos.x : ℤ) : ℚ) + 1 - pos.x) * (1 / |dir.x|)) := by
    split_ifs
    · exact mul_nonneg (by linarith) hdx
    · exact mul_nonneg (by linarith) hdx
  have hsdy : 0 ≤ (if dir.y < 0 then (pos.y - ((truncQ pos.y : ℤ) : ℚ)) * (1 / |dir.y|)
      else (((truncQ pos.y : ℤ) : ℚ) + 1 - pos.y) * (1 / |dir.y|)) := by
    split_ifs
    · exact mul_nonneg (by linarith) hdy
    · exact mul_nonneg (by linarith) hdy
  simp only [Map.ray_cast]
  rcases hmt0 : m.get_tile (truncQ pos.x) (truncQ pos.y) with _ | tile
  · simp only [hmt0]
    trivial
  · simp only [hmt0]
    rcases hsi0 : tile.shape.ray_cast fns (pos - vecOfInt (truncQ pos.x, truncQ pos.y)) dir
        with _ | si
    all_goals simp only [hsi0]
    · exact rayLoop_ordered m fns pos dir _ _ _ cb hdx hdy fuel _ _ _ _ _ hsdx hsdy
    · have hlen := Shape.ray_cast_length_ge _ _ _ _ _ hsi0
      split
      · exact ⟨by simp only; linarith, trivial⟩
      · exact ⟨by simp only; linarith,
          rayLoop_ordered m fns pos dir _ _ _ cb hdx hdy fuel _ _ _ _ _ hsdx hsdy⟩

/-- C1 witness: the amended ordering at a concrete map and ray. -/
theorem c1_hits_ordered_from_origin_witness :
    OrderedFrom 0
      ((Map.mk 2 2
          (List.replicate 4 (Tile.mk Shape.Void (fun _ => Color.Test) Color.Test 0 Color.Test 1))
          1).ray_cast ⟨fun q => q, fun q => q, 0⟩ ⟨3/2, 3/2⟩ ⟨1, 1/3⟩
          (fun (_ : Unit) (_ : HitR) => ((), false)) () 5).1 :=
  c1_hits_ordered_from_origin
    (Map.mk 2 2
      (List.replicate 4 (Tile.mk Shape.Void (fun _ => Color.Test) Color.Test 0 Color.Test 1)) 1)
    ⟨fun q => q, fun q => q, 0⟩ ⟨3/2, 3/2⟩ ⟨1, 1/3⟩
    (fun (_ : Unit) (_ : HitR) => ((), false)) () 5 (by norm_num) (by norm_num)

/-- The `left` counter starts at `self.height`, which equals the number
of not-yet-opaque pixels of a freshly initialised column: every pixel
starts with `remaining_alpha = 1`. -/
theorem countLeft_init (width height x : ℕ) :
    countLeft width height (fun _ => initPix) x = height := by
  have h1 : initPix 3 = 1 := rfl
  simp [countLeft, h1]

/-- `left = 0` (under the tracking invariant) says exactly that every
pixel of the column is fully opaque. -/
theorem countLeft_eq_zero_iff (width height x : ℕ) (temp : ℕ → Rgba) :
    countLeft width height temp x = 0 ↔
      ∀ y < height, temp (y * width + x) 3 = 0 := by
  unfold countLeft
  rw [Finset.card_eq_zero, Finset.filter_eq_empty_iff]
  simp

/-- Updating one not-yet-opaque pixel of column `x` decreases the
column's count of not-yet-opaque pixels by one if the new alpha is `0`
and leaves it unchanged otherwise; the count was positive before. -/
theorem countLeft_update (width height x y : ℕ) (temp : ℕ → Rgba) (newp : Rgba)
    (hx : x < width) (hy : y < height) (hnf : temp (y * width + x) 3 ≠ 0) :
    0 < countLeft width height temp x ∧
    (newp 3 = 0 →
      countLeft width height (Function.update temp (y * width + x) newp) x =
        countLeft width height temp x - 1) ∧
    (newp 3 ≠ 0 →
      countLeft width height (Function.update temp (y * width + x) newp) x =
        countLeft width height temp x) := by
  have hwidth : 0 < width := Nat.lt_of_le_of_lt (Nat.zero_le x) hx
  have hne : ∀ y' : ℕ, y' ≠ y → y' * width + x ≠ y * width + x := by
    intro y' hy' h
    exact hy' (Nat.eq_of_mul_eq_mul_right hwidth (Nat.add_right_cancel h))
  have hmem : y ∈ (Finset.range height).filter
      (fun y' => temp (y' * width + x) 3 ≠ 0) :=
    Finset.mem_filter.mpr ⟨Finset.mem_range.mpr hy, hnf⟩
  refine ⟨Finset.card_pos.mpr ⟨y, hmem⟩, ?_, ?_⟩
  · intro h0
    have hset : (Finset.range height).filter
        (fun y' => Function.update temp (y * width + x) newp (y' * width + x) 3 ≠ 0) =
        ((Finset.range height).filter (fun y' => temp (y' * width + x) 3 ≠ 0)).erase y := by
      ext y'
      simp only [Finset.mem_filter, Finset.mem_erase, Finset.mem_range]
      constructor
      · rintro ⟨h1, h2⟩
        by_cases hyy : y' = y
        · subst hyy
          rw [Function.update_same] at h2
          exact absurd h0 h2
        · rw [Function.update_noteq (hne y' hyy)] at h2
          exact ⟨hyy, h1, h2⟩
      · rintro ⟨hyy, h1, h2⟩
        refine ⟨h1, ?_⟩
        rw [Function.update_noteq (hne y' hyy)]
        exact h2
    unfold countLeft
    rw [hset, Finset.card_erase_of_mem hmem]
  · intro h0
    unfold countLeft
    apply congrArg Finset.card
    ext y'
    simp only [Finset.mem_filter, Finset.mem_range]
    by_cases hyy : y' = y
    · subst hyy
      rw [Function.update_same]
      exact ⟨fun ⟨h1, _⟩ => ⟨h1, hnf⟩, fun ⟨h1, _⟩ => ⟨h1, h0⟩⟩
    · rw [Function.update_noteq (hne y' hyy)]

/-- `set_pixel` on a not-yet-opaque pixel of column `x`: its return
flag says whether the pixel just became opaque, and the column's
not-yet-opaque count drops by one exactly in that case. -/
theorem set_pixel_count (width height x y : ℕ) (temp : ℕ → Rgba) (color : Rgba)
    (hx : x < width) (hy : y < height) (hnf : temp (y * width + x) 3 ≠ 0) :
    0 < countLeft width height temp x ∧
    ((set_pixel width temp x y color).2 = true →
      countLeft width height (set_pixel width temp x y color).1 x =
        countLeft width height temp x - 1) ∧
    ((set_pixel width temp x y color).2 = false →
      countLeft width height (set_pixel width temp x y color).1 x =
        countLeft width height temp x) := by
  have hlt3 : ¬ (((3 : Fin 4) : ℕ) < 3) := by decide
  obtain ⟨hpos, hz, hnz⟩ := countLeft_update width height x y temp
    (fun i : Fin 4 => if (i : ℕ) < 3 then
        temp (y * width + x) i + temp (y * width + x) 3 * color 3 * color i
      else temp (y * width + x) 3 * (1 - color 3)) hx hy hnf
  rw [if_neg hlt3] at hz hnz
  have hflag : (set_pixel width temp x y color).2 =
      decide (temp (y * width + x) 3 * (1 - color 3) = 0) := by
    have h1 : (set_pixel width temp x y color).2 =
        decide ((Function.update temp (y * width + x)
          (fun i : Fin 4 => if (i : ℕ) < 3 then
              temp (y * width + x) i + temp (y * width + x) 3 * color 3 * color i
            else temp (y * width + x) 3 * (1 - color 3))) (y * width + x) 3 = 0) := rfl
    rw [h1, Function.update_same, if_neg hlt3]
  refine ⟨hpos, ?_, ?_⟩
  · intro ht
    rw [hflag, decide_eq_true_eq] at ht
    exact hz ht
  · intro hf
    rw [hflag] at hf
    have hf' : temp (y * width + x) 3 * (1 - color 3) ≠ 0 := by
      intro h; rw [h] at hf; simp at hf
    exact hnz hf'

/-- The `render_wall` pixel loop conserves `count + drawn`: every pixel
it makes opaque is counted once in `drawn` and disappears once from the
column's not-yet-opaque count. -/
theorem wall_fold_count (width height x : ℕ) (colorOf : ℕ → Rgba) (l : List ℕ) (hx : x < width) :
    ∀ acc : (ℕ → Rgba) × ℕ, (∀ y ∈ l, y < height) →
      countLeft width height
          (l.foldl (fun acc y =>
            if pixel_finished width acc.1 x y then acc
            else
              ((set_pixel width acc.1 x y (colorOf y)).1,
                if (set_pixel width acc.1 x y (colorOf y)).2 then acc.2 + 1 else acc.2)) acc).1 x +
        (l.foldl (fun acc y =>
            if pixel_finished width acc.1 x y then acc
            else
              ((set_pixel width acc.1 x y (colorOf y)).1,
                if (set_pixel width acc.1 x y (colorOf y)).2 then acc.2 + 1 else acc.2)) acc).2 =
      countLeft width height acc.1 x + acc.2 := by
  induction l with
  | nil => intro acc _; rfl
  | cons y l ih =>
    intro acc hl
    have hy : y < height := hl y (List.mem_cons_self y l)
    have hl' : ∀ y ∈ l, y < height := fun y h => hl y (List.mem_cons_of_mem _ h)
    simp only [List.foldl_cons]
    by_cases hf : pixel_finished width acc.1 x y = true
    · rw [if_pos hf]
      exact ih acc hl'
    · have hnf : acc.1 (y * width + x) 3 ≠ 0 := by
        simpa [pixel_finished] using hf
      rw [if_neg hf]
      obtain ⟨hpos, hz, hnz⟩ := set_pixel_count width height x y acc.1 (colorOf y) hx hy hnf
      rcases Bool.eq_false_or_eq_true (set_pixel width acc.1 x y (colorOf y)).2 with hb | hb
      · rw [if_pos (by simp [hb])]
        have := ih ((set_pixel width acc.1 x y (colorOf y)).1, acc.2 + 1) hl'
        rw [hz hb] at this
        omega
      · rw [if_neg (by simp [hb])]
        have := ih ((set_pixel width acc.1 x y (colorOf y)).1, acc.2) hl'
        rw [hnz hb] at this
        omega

/-- The floor/ceiling pixel loop preserves the tracking invariant
`left = countLeft`: the `left != 0` guard always passes when a pixel
becomes opaque, because the count is positive at that moment. -/
theorem floor_fold_count (width height x : ℕ) (fh : FloorHitR) (cd : ℕ → ℚ)
    (co : FloorHitR → Vec2 → Rgba) (l : List ℕ) (hx : x < width) :
    ∀ p : (ℕ → Rgba) × ℕ, (∀ y ∈ l, y < height) →
      p.2 = countLeft width height p.1 x →
      (l.foldl (floorRow width x fh cd co) p).2 =
        countLeft width height (l.foldl (floorRow width x fh cd co) p).1 x := by
  induction l with
  | nil => intro p _ hp; exact hp
  | cons y l ih =>
    intro p hl hp
    have hy : y < height := hl y (List.mem_cons_self y l)
    have hl' : ∀ y ∈ l, y < height := fun y h => hl y (List.mem_cons_of_mem _ h)
    simp only [List.foldl_cons]
    rw [show List.foldl (floorRow width x fh cd co) (floorRow width x fh cd co p y) l =
      List.foldl (floorRow width x fh cd co)
        (if pixel_finished width p.1 x y then p
         else
          ((set_pixel width p.1 x y
              (co fh (((cd y - fh.dist1) / (fh.dist2 - fh.dist1)) • fh.pos2 +
                (1 - (cd y - fh.dist1) / (fh.dist2 - fh.dist1)) • fh.pos1))).1,
            if (set_pixel width p.1 x y
                (co fh (((cd y - fh.dist1) / (fh.dist2 - fh.dist1)) • fh.pos2 +
                  (1 - (cd y - fh.dist1) / (fh.dist2 - fh.dist1)) • fh.pos1))).2 &&
                decide (p.2 ≠ 0) then p.2 - 1 else p.2)) l from rfl]
    by_cases hf : pixel_finished width p.1 x y = true
    · rw [if_pos hf]
      exact ih p hl' hp
    · rw [if_neg hf]
      have hnf : p.1 (y * width + x) 3 ≠ 0 := by
        simpa [pixel_finished] using hf
      obtain ⟨hpos, hz, hnz⟩ := set_pixel_count width height x y p.1
        (co fh (((cd y - fh.dist1) / (fh.dist2 - fh.dist1)) • fh.pos2 +
          (1 - (cd y - fh.dist1) / (fh.dist2 - fh.dist1)) • fh.pos1)) hx hy hnf
      rcases Bool.eq_false_or_eq_true (set_pixel width p.1 x y
          (co fh (((cd y - fh.dist1) / (fh.dist2 - fh.dist1)) • fh.pos2 +
            (1 - (cd y - fh.dist1) / (fh.dist2 - fh.dist1)) • fh.pos1))).2 with hb | hb
      · have hp0 : p.2 ≠ 0 := by omega
        rw [hb, show decide (p.2 ≠ 0) = true by simp [hp0],
          if_pos (show ((true && true : Bool) = true) from rfl)]
        exact ih _ hl' (by rw [hz hb]; omega)
      · rw [hb, Bool.false_and, if_neg (show ¬ ((false : Bool) = true) by simp)]
        exact ih _ hl' (by rw [hnz hb]; omega)

/-- The floor pass never targets a row at or below the bottom of the
screen. -/
theorem y_from_floor_dist_le (height : ℕ) (dist z : ℚ) :
    y_from_floor_dist height dist z ≤ height := by
  unfold y_from_floor_dist
  split_ifs
  · exact le_refl _
  · exact min_le_right _ _

/-- The ceiling pass never targets a row below the middle of the
screen. -/
theorem y_from_ceiling_dist_le (height : ℕ) (dist z : ℚ) :
    y_from_ceiling_dist height dist z ≤ height := by
  unfold y_from_ceiling_dist
  split_ifs
  · exact Nat.zero_le _
  · exact le_trans (min_le_right _ _) (Nat.div_le_self _ _)

/-- When the wall span's lower screen row is non-negative as an `i32`,
the clamped draw range stays on screen. -/
theorem intToUsize_le (n : ℤ) (bound : ℕ) (h : 0 ≤ n) (hb : n ≤ (bound : ℤ)) :
    intToUsize n ≤ bound := by
  unfold intToUsize
  omega

/-- `render_wall` conserves `count + drawn` over the whole column, as
long as the clamped span does not wrap around through the `as usize`
conversion (its upper end is a non-negative `i32`). -/
theorem render_wall_count (width height x : ℕ) (temp : ℕ → Rgba) (wh : WallHitR)
    (cameraZ wall_height : ℚ) (hx : x < width)
    (hspan : 0 ≤ (wallSpan height cameraZ wall_height wh.length).2) :
    countLeft width height (render_wall width height temp x wh cameraZ wall_height).1 x +
      (render_wall width height temp x wh cameraZ wall_height).2 =
      countLeft width height temp x := by
  have hde : intToUsize (min (wallSpan height cameraZ wall_height wh.length).2 (height : ℤ)) ≤
      height :=
    intToUsize_le _ _ (le_min hspan (Int.natCast_nonneg height)) (min_le_right _ _)
  have hl : ∀ y ∈ List.range'
      (intToUsize (max (wallSpan height cameraZ wall_height wh.length).1 0))
      (intToUsize (min (wallSpan height cameraZ wall_height wh.length).2 (height : ℤ)) -
        intToUsize (max (wallSpan height cameraZ wall_height wh.length).1 0)),
      y < height := by
    intro y hy
    rw [List.mem_range'_1] at hy
    omega
  have := wall_fold_count width height x
    (fun y => wh.color.sample
      ⟨wh.x, (((y : ℤ) - (wallSpan height cameraZ wall_height wh.length).1 : ℤ) : ℚ) /
        (((wallSpan height cameraZ wall_height wh.length).2 -
          (wallSpan height cameraZ wall_height wh.length).1 : ℤ) : ℚ)⟩)
    (List.range'
      (intToUsize (max (wallSpan height cameraZ wall_height wh.length).1 0))
      (intToUsize (min (wallSpan height cameraZ wall_height wh.length).2 (height : ℤ)) -
        intToUsize (max (wallSpan height cameraZ wall_height wh.length).1 0)))
    hx (temp, 0) hl
  exact this

/-- The `WallHit` arm of the per-column callback preserves the
invariant `left = countLeft`. -/
theorem wallArm_count (width height x : ℕ) (cameraZ wall_height : ℚ) (wh : WallHitR)
    (temp : ℕ → Rgba) (left : ℕ) (hx : x < width)
    (hinv : left = countLeft width height temp x)
    (hspan : 0 ≤ (wallSpan height cameraZ wall_height wh.length).2) :
    (wallArm width height x cameraZ wall_height wh temp left).1.2 =
      countLeft width height
        (wallArm width height x cameraZ wall_height wh temp left).1.1 x := by
  have h := render_wall_count width height x temp wh cameraZ wall_height hx hspan
  show left - (render_wall width height temp x wh cameraZ wall_height).2 =
    countLeft width height (render_wall width height temp x wh cameraZ wall_height).1 x
  omega

/-- The `FloorHit` arm of the per-column callback preserves the
invariant `left = countLeft`. -/
theorem floorArm_count (width height x : ℕ) (cameraZ : ℚ) (fh : FloorHitR)
    (temp : ℕ → Rgba) (left : ℕ) (hx : x < width)
    (hinv : left = countLeft width height temp x) :
    (floorArm width height x cameraZ fh temp left).1.2 =
      countLeft width height (floorArm width height x cameraZ fh temp left).1.1 x := by
  have hl1 : ∀ y ∈ List.range'
      (y_from_floor_dist height fh.dist2 (fh.floor_height * 2 - cameraZ))
      (y_from_floor_dist height fh.dist1 (fh.floor_height * 2 - cameraZ) -
        y_from_floor_dist height fh.dist2 (fh.floor_height * 2 - cameraZ)),
      y < height := by
    intro y hy
    rw [List.mem_range'_1] at hy
    have h1 := y_from_floor_dist_le height fh.dist1 (fh.floor_height * 2 - cameraZ)
    have h2 := y_from_floor_dist_le height fh.dist2 (fh.floor_height * 2 - cameraZ)
    omega
  have hl2 : ∀ y ∈ List.range'
      (y_from_ceiling_dist height fh.dist1 (fh.ceiling_height * 2 - cameraZ - 2))
      (y_from_ceiling_dist height fh.dist2 (fh.ceiling_height * 2 - cameraZ - 2) -
        y_from_ceiling_dist height fh.dist1 (fh.ceiling_height * 2 - cameraZ - 2)),
      y < height := by
    intro y hy
    rw [List.mem_range'_1] at hy
    have h1 := y_from_ceiling_dist_le height fh.dist1 (fh.ceiling_height * 2 - cameraZ - 2)
    have h2 := y_from_ceiling_dist_le height fh.dist2 (fh.ceiling_height * 2 - cameraZ - 2)
    omega
  have h1 := floor_fold_count width height x fh
    (fun y => (height : ℚ) * (1 - (fh.floor_height * 2 - cameraZ)) / (2 * (y : ℚ) - (height : ℚ)))
    (fun fh p => fh.floor_color.sample p)
    (List.range'
      (y_from_floor_dist height fh.dist2 (fh.floor_height * 2 - cameraZ))
      (y_from_floor_dist height fh.dist1 (fh.floor_height * 2 - cameraZ) -
        y_from_floor_dist height fh.dist2 (fh.floor_height * 2 - cameraZ)))
    hx (temp, left) hl1 hinv
  have h2 := floor_fold_count width height x fh
    (fun y => (height : ℚ) * ((fh.ceiling_height * 2 - cameraZ - 2) + 1) /
      ((height : ℚ) - 2 * (y : ℚ)))
    (fun fh p => fh.ceiling_color.sample p)
    (List.range'
      (y_from_ceiling_dist height fh.dist1 (fh.ceiling_height * 2 - cameraZ - 2))
      (y_from_ceiling_dist height fh.dist2 (fh.ceiling_height * 2 - cameraZ - 2) -
        y_from_ceiling_dist height fh.dist1 (fh.ceiling_height * 2 - cameraZ - 2)))
    hx _ hl2 h1
  exact h2

/-- C8: the per-column callback `Renderer::render` hands to
`Map::ray_cast` keeps the `left` counter equal to the number of pixel
rows of the column whose `remaining_alpha` is still nonzero, and it
returns `true` (stopping traversal early) exactly when every pixel row
of the column has `remaining_alpha = 0`; `left` starts at `height`,
the count for a freshly initialised column.  For a `WallHit` the
clamped span is assumed not to wrap through the `as usize` conversion
(its upper end is a non-negative `i32`), which is also what keeps the
source's indexing in bounds. -/
theorem c8_left_tracks_unfinished (width height x : ℕ) (cameraZ wall_height : ℚ)
    (hit : HitR) (temp : ℕ → Rgba) (left : ℕ)
    (hx : x < width)
    (hinv : left = countLeft width height temp x)
    (hspan : ∀ wh, hit = HitR.WallHit wh →
      0 ≤ (wallSpan height cameraZ wall_height wh.length).2) :
    (columnCallback width height x cameraZ wall_height (temp, left) hit).1.2 =
      countLeft width height
        (columnCallback width height x cameraZ wall_height (temp, left) hit).1.1 x ∧
    ((columnCallback width height x cameraZ wall_height (temp, left) hit).2 = true ↔
      ∀ y < height,
        (columnCallback width height x cameraZ wall_height (temp, left) hit).1.1
          (y * width + x) 3 = 0) ∧
    countLeft width height (fun _ => initPix) x = height := by
  cases hit with
  | WallHit wh =>
    simp only [columnCallback]
    have hmain := wallArm_count width height x cameraZ wall_height wh temp left hx hinv
      (hspan wh rfl)
    refine ⟨hmain, ?_, countLeft_init width height x⟩
    have hflag : (wallArm width height x cameraZ wall_height wh temp left).2 =
        decide ((wallArm width height x cameraZ wall_height wh temp left).1.2 = 0) := rfl
    rw [hflag, decide_eq_true_eq, hmain]
    exact countLeft_eq_zero_iff width height x _
  | FloorHit fh =>
    simp only [columnCallback]
    have hmain := floorArm_count width height x cameraZ fh temp left hx hinv
    refine ⟨hmain, ?_, countLeft_init width height x⟩
    have hflag : (floorArm width height x cameraZ fh temp left).2 =
        decide ((floorArm width height x cameraZ fh temp left).1.2 = 0) := rfl
    rw [hflag, decide_eq_true_eq, hmain]
    exact countLeft_eq_zero_iff width height x _

/-- C8 witness: the invariant and the exhaustion criterion at a
concrete column state. -/
theorem c8_left_tracks_unfinished_witness :
    (columnCallback 2 3 0 0 1 ((fun _ => initPix), 3)
        (HitR.FloorHit ⟨⟨0, 0⟩, ⟨1, 1⟩, 0, 1, Color.Test, 0, Color.Test, 1⟩)).1.2 =
      countLeft 2 3
        (columnCallback 2 3 0 0 1 ((fun _ => initPix), 3)
          (HitR.FloorHit ⟨⟨0, 0⟩, ⟨1, 1⟩, 0, 1, Color.Test, 0, Color.Test, 1⟩)).1.1 0 ∧
    ((columnCallback 2 3 0 0 1 ((fun _ => initPix), 3)
        (HitR.FloorHit ⟨⟨0, 0⟩, ⟨1, 1⟩, 0, 1, Color.Test, 0, Color.Test, 1⟩)).2 = true ↔
      ∀ y < 3,
        (columnCallback 2 3 0 0 1 ((fun _ => initPix), 3)
          (HitR.FloorHit ⟨⟨0, 0⟩, ⟨1, 1⟩, 0, 1, Color.Test, 0, Color.Test, 1⟩)).1.1
          (y * 2 + 0) 3 = 0) ∧
    countLeft 2 3 (fun _ => initPix) 0 = 3 :=
  c8_left_tracks_unfinished 2 3 0 0 1
    (HitR.FloorHit ⟨⟨0, 0⟩, ⟨1, 1⟩, 0, 1, Color.Test, 0, Color.Test, 1⟩)
    (fun _ => initPix) 3 (by norm_num) (countLeft_init 2 3 0).symm
    (fun wh h => nomatch h)

end RaycasterCPU
